import Mathlib

/-!
Verification development for the revision engine of this repository
(revision trees + version vectors of an embedded syncable document store).

Shallow embedding notes:
* machine integers are modelled as `Nat`; the only arithmetic that can
  overflow in the modelled paths is the `uint64_t` generation increment in
  `VersionVector::incrementGen`, which is modelled with an explicit
  `% 2^64`;
* C++ functions that throw (`error::_throw`) are modelled with `Except`;
* pointer-linked `Rev` nodes are modelled by their unique `revID`
  (the tree invariant "exactly one Rev per revID" makes this faithful);
  ancestor walks over parent links are written with an explicit fuel
  argument of `revs.length + 1`, which is enough for every acyclic tree
  (the C++ code would not terminate on a cyclic tree either).
-/

-- Equality of `Except` results is decidable; used to evaluate the model
-- on concrete inputs.
deriving instance DecidableEq for Except

namespace CBF

/-- `versionOrder` constants from `VersionVector.hh`:
`kSame = 0`, `kOlder = 1`, `kNewer = 2`, `kConflicting = kOlder | kNewer`.
The C++ accumulates them as bits in an `int`, so we keep them as `Nat`. -/
def kSame : Nat := 0

/-- `kOlder` bit of `versionOrder`. -/
def kOlder : Nat := 1

/-- `kNewer` bit of `versionOrder`. -/
def kNewer : Nat := 2

/-- `kConflicting = kOlder | kNewer`. -/
def kConflicting : Nat := 3

/-- The distinguished "me" peer ID, serialized as `*`
(`kMePeerID = {"*", 1}` in `VersionVector.cc`). -/
def kMePeerID : String := "*"

/-- `kMaxAuthorSize` from `VersionVector.hh` (maximum peer-ID length). -/
def kMaxAuthorSize : Nat := 64

/-- One element of a version vector: `version {generation gen; peerID author}`.
A merge-marker version has `gen = 0` (`isMerge()`). -/
structure Version where
  gen : Nat
  author : String
deriving DecidableEq, Repr

/-- `version::isMerge()`: true iff the generation is 0. -/
def Version.isMerge (v : Version) : Bool := v.gen == 0

/-- Errors thrown by the version-vector code (`error::BadVersionVector`). -/
inductive VVErr where
  | badVersionVector
deriving DecidableEq, Repr

/-- Character class used by `version::validate()` for merge versions:
`isalpha(c) || isnumber(c) || c=='+' || c=='/' || c=='='` (base64). -/
def isBase64Char (c : Char) : Bool :=
  (c ≥ 'a' && c ≤ 'z') || (c ≥ 'A' && c ≤ 'Z') || (c ≥ '0' && c ≤ '9') ||
  c == '+' || c == '/' || c == '='

/-- `version::validate()`: the author must be 1..kMaxAuthorSize bytes; a
merge version's author must be base64 characters; a normal version's
author must contain no `,` and no NUL byte. Throws `BadVersionVector`. -/
def Version.validate (v : Version) : Except VVErr Unit :=
  if v.author.length < 1 || v.author.length > kMaxAuthorSize then
    .error .badVersionVector
  else if v.isMerge then
    if v.author.toList.all isBase64Char then .ok () else .error .badVersionVector
  else
    if v.author.toList.all (fun c => c ≠ ',' && c ≠ Char.ofNat 0) then .ok ()
    else .error .badVersionVector

/-- A `VersionVector` is its ordered list of versions (`_vers`).
The cached `_string`/`_changed` fields only affect re-serialization and are
not modelled. -/
abbrev VV := List Version

/-- `VersionVector::findPeerIter` followed by the dereference:
the first version whose author equals the given peer, if any. -/
def findPeer (vv : VV) (author : String) : Option Version :=
  vv.find? (fun v => v.author == author)

/-- `VersionVector::genOfAuthor`: generation of the given peer, 0 if absent. -/
def genOfAuthor (vv : VV) (author : String) : Nat :=
  match findPeer vv author with
  | some v => v.gen
  | none => 0

/-- The accumulation loop of `VersionVector::compareTo(const VersionVector&)`:
for each of this's versions, compare its generation against
`other.gen(peer)`; `o |= kOlder` / `o |= kNewer`; on equality break with
`kSame` only when nothing was accumulated; break once `o == kConflicting`. -/
def compareLoop (other : VV) : Nat → VV → Nat
  | o, [] => o
  | o, v :: rest =>
    let othergen := genOfAuthor other v.author
    if v.gen < othergen then
      let o1 := o ||| kOlder
      if o1 = kConflicting then o1 else compareLoop other o1 rest
    else if v.gen > othergen then
      let o1 := o ||| kNewer
      if o1 = kConflicting then o1 else compareLoop other o1 rest
    else if o = kSame then o
    else compareLoop other o rest

/-- `VersionVector::compareTo(const VersionVector&)`: starts from the sign of
the count difference, then runs the accumulation loop. -/
def compareTo (a b : VV) : Nat :=
  let o :=
    if a.length < b.length then kOlder
    else if b.length < a.length then kNewer
    else kSame
  compareLoop b o a

/-- `VersionVector::incrementGen(author)`: if the author is present, removing
it and reinserting `(gen+1, author)` at the head (failing `BadVersionVector`
for a merge-marker entry); otherwise inserting a validated `(1, author)` at
the head. The `uint64_t` increment is modelled mod `2^64`. -/
def incrementGen (vv : VV) (author : String) : Except VVErr VV :=
  match findPeer vv author with
  | some v =>
    if v.isMerge then .error .badVersionVector
    else .ok ({ gen := (v.gen + 1) % 2 ^ 64, author := v.author } ::
              vv.eraseP (fun x => x.author == author))
  | none =>
    let v : Version := { gen := 1, author := author }
    match v.validate with
    | .ok _ => .ok (v :: vv)
    | .error e => .error e

/-- `versionMap`: hash map from author to generation built by inserting the
vector's versions in order (later entries overwrite). Lookup returns 0 for
an absent author. -/
def versionMapGet (vv : VV) (author : String) : Nat :=
  vv.foldl (fun g v => if v.author = author then v.gen else g) 0

/-- `VersionVector::append(vers)`: validates the version, then pushes it at
the end (author copying is identity in the model). -/
def vvAppend (vv : VV) (v : Version) : Except VVErr VV :=
  match v.validate with
  | .ok _ => .ok (vv ++ [v])
  | .error e => .error e

/-- Tail of the `mergedWith` walk once `this` has run out of versions: the
remaining iterations of the `for` loop only execute the `other`-side step
(append the other's version when its generation beats this's map). -/
def mergedTail (gA : String → Nat) : VV → Except VVErr VV
  | [] => .ok []
  | b :: bs =>
    let keepB : Except VVErr VV :=
      if gA b.author < b.gen then (vvAppend [] b) else .ok []
    keepB.bind fun h => (mergedTail gA bs).map (fun t => h ++ t)

/-- The parallel walk of `VersionVector::mergedWith`: at index `i` append
this's `i`-th version when its generation is `>=` the other map's entry, then
append the other's `i`-th version when its generation is `>` this map's
entry. `gA`/`gB` are the two `versionMap`s; the two lists are walked in
lockstep, which is exactly the `for (i < max(size, other.size))` loop. -/
def mergedAux (gA gB : String → Nat) : VV → VV → Except VVErr VV
  | [], lb => mergedTail gA lb
  | a :: as_, [] =>
    let keepA : Except VVErr VV :=
      if gB a.author ≤ a.gen then (vvAppend [] a) else .ok []
    keepA.bind fun h => (mergedAux gA gB as_ []).map (fun t => h ++ t)
  | a :: as_, b :: bs =>
    let keepA : Except VVErr VV :=
      if gB a.author ≤ a.gen then (vvAppend [] a) else .ok []
    keepA.bind fun ha =>
      (let keepB : Except VVErr VV :=
        if gA b.author < b.gen then (vvAppend [] b) else .ok []
       keepB.bind fun hb =>
        (mergedAux gA gB as_ bs).map (fun t => (ha ++ hb) ++ t))

/-- `VersionVector::mergedWith(other)`: walk both vectors in parallel,
keeping each peer's larger generation (ties kept from `this`). -/
def mergedWith (a b : VV) : Except VVErr VV :=
  mergedAux (versionMapGet a) (versionMapGet b) a b

/-! Lemmas about `compareTo`. -/
/-- Swapping the roles of the two vectors swaps the `kOlder` and `kNewer`
bits of a `versionOrder`. -/
def mirrorOrder (o : Nat) : Nat :=
  if o = kOlder then kNewer else if o = kNewer then kOlder else o

end CBF

namespace RT

/-- A rev-tree revision ID: `(generation, digest)` (`revid`). Two revIDs
are equal iff generation and digest agree (bytewise equality of the
binary encoding). -/
structure RevId where
  gen : Nat
  digest : String
deriving DecidableEq, Repr

/-- A node of the revision tree (`Rev` in `RevTree.hh`). The C++ stores the
flag bits `kDeleted|kLeaf|kNew|kHasAttachments|kKeepBody|kIsConflict|
kClosed|kPurge` in one byte; here each is a named `Bool`. The parent
pointer is modelled by the parent's unique `revID` (`none` for a root);
`body` is `none` for a null slice. -/
structure Rev where
  revID : RevId
  parent : Option RevId
  sequence : Nat
  body : Option (List Nat)
  leaf : Bool
  deleted : Bool
  closed : Bool
  hasAttachments : Bool
  keepBody : Bool
  isNew : Bool
  isConflict : Bool
  purge : Bool
deriving DecidableEq, Repr

/-- The revision tree:`_revs` (owning list of Revs), `_remoteRevs`
(RemoteID keyed map, modelled as an association list in key order, each
entry holding the revID of the Rev it points to), `_sorted` and `_changed`.
(`_unknown` only guards assertions and is not modelled; `_changed` is kept
but several flag-only mutations set it coarsely.) -/
structure RevTree where
  revs : List Rev
  remoteRevs : List (Nat × RevId)
  sorted : Bool
  changed : Bool
deriving DecidableEq, Repr

/-- Mutation of the unique Rev with the given revID (a pointer write in
the C++; the tree invariant "exactly one Rev per revID" makes the map
faithful). -/
def updateRev (revs : List Rev) (rid : RevId) (f : Rev → Rev) : List Rev :=
  revs.map (fun r => if r.revID = rid then f r else r)

/-- `RevTree::get(revid)`: the Rev with this ID, if any. -/
def RevTree.get (t : RevTree) (rid : RevId) : Option Rev :=
  t.revs.find? (fun r => r.revID == rid)

/-- The four flags `_insert` keeps from its `revFlags` argument
(`kDeleted | kClosed | kHasAttachments | kKeepBody`). -/
structure RevFlags where
  deleted : Bool
  closed : Bool
  hasAttachments : Bool
  keepBody : Bool
deriving DecidableEq, Repr

/-- The ancestor walk of `RevTree::keepBody`: clear `kKeepBody` on every
ancestor of the new Rev, stopping at the end of a conflict branch. -/
def clearKeepBodyAnc (maxFuel : Nat) (conflict : Bool) :
    Nat → List Rev → Option RevId → List Rev
  | 0, revs, _ => revs
  | _ + 1, revs, none => revs
  | fuel + 1, revs, some pid =>
    match revs.find? (fun r => r.revID == pid) with
    | none => revs
    | some anc =>
      if conflict && !anc.isConflict then revs
      else
        clearKeepBodyAnc maxFuel conflict fuel
          (updateRev revs pid (fun x => { x with keepBody := false })) anc.parent

/-- The walk of `RevTree::removeBodiesOnBranch`: remove the body of every
Rev from the given one up to the root. -/
def removeBodiesFrom : Nat → List Rev → Option RevId → List Rev
  | 0, revs, _ => revs
  | _ + 1, revs, none => revs
  | fuel + 1, revs, some pid =>
    match revs.find? (fun r => r.revID == pid) with
    | none => revs
    | some r =>
      removeBodiesFrom fuel
        (updateRev revs pid (fun x => { x with body := none })) r.parent

/-- `RevTree::_insert`: the unchecked lowest-level insert. Creates the new
Rev with `kLeaf|kNew` plus the masked flags, marks it `kIsConflict` when
requested and the parent is a non-leaf/conflict (or a second root), clears
`kLeaf` on the parent, then applies the `kKeepBody` / `kClosed` branch
maintenance. (The debug-only assertions are not modelled.) -/
def RevTree.insertLow (t : RevTree) (revID : RevId) (body : Option (List Nat))
    (parent : Option Rev) (flags : RevFlags) (markConflict : Bool) :
    RevTree × Rev :=
  let newConflict :=
    match parent with
    | some p => markConflict && (!p.leaf || p.isConflict)
    | none => markConflict && !t.revs.isEmpty
  let newRev : Rev := {
    revID := revID, parent := parent.map Rev.revID, sequence := 0,
    body := body, leaf := true, deleted := flags.deleted,
    closed := flags.closed, hasAttachments := flags.hasAttachments,
    keepBody := flags.keepBody, isNew := true, isConflict := newConflict,
    purge := false }
  let revs1 :=
    match parent with
    | some p =>
      let r1 := updateRev t.revs p.revID (fun r => { r with leaf := false })
      if flags.keepBody then
        clearKeepBodyAnc (r1.length + 1) newConflict (r1.length + 1) r1
          (some p.revID)
      else if flags.closed then
        removeBodiesFrom (r1.length + 1) r1 (some p.revID)
      else r1
    | none => t.revs
  ({ t with
      revs := revs1 ++ [newRev]
      changed := true
      sorted := if t.revs.isEmpty then t.sorted else false }, newRev)

/-- `RevTree::insert(revID, body, revFlags, parent, allowConflict,
markConflict, httpStatus)`: the checked insert over a parent Rev pointer.
Returns the new Rev (or null), the `httpStatus`, and the updated tree. -/
def RevTree.insert (t : RevTree) (revID : RevId) (body : Option (List Nat))
    (flags : RevFlags) (parent : Option Rev)
    (allowConflict markConflict : Bool) : Option Rev × Nat × RevTree :=
  if revID.gen = 0 then (none, 400, t)
  else if (t.get revID).isSome then (none, 200, t)
  else
    let conflictCheck : Except Nat Nat :=
      match parent with
      | some p =>
        if !allowConflict && !p.leaf then .error 409 else .ok p.revID.gen
      | none =>
        if !allowConflict && decide (t.revs.length > 0) then .error 409
        else .ok 0
    match conflictCheck with
    | .error s => (none, s, t)
    | .ok parentGen =>
      if revID.gen ≠ parentGen + 1 then (none, 400, t)
      else
        let (t2, newRev) := t.insertLow revID body parent flags markConflict
        (some newRev, (if flags.deleted then 200 else 201), t2)

/-- The inner ancestry walk of `RevTree::prune`: from a leaf, walk toward
the root counting depth, marking `kPurge` (and counting) on every Rev
deeper than `maxDepth` that does not carry `kKeepBody`. -/
def markAnc (maxDepth : Nat) : Nat → List Rev → Option RevId → Nat → Nat →
    List Rev × Nat
  | 0, revs, _, _, cnt => (revs, cnt)
  | _ + 1, revs, none, _, cnt => (revs, cnt)
  | fuel + 1, revs, some cid, depth, cnt =>
    match revs.find? (fun r => r.revID == cid) with
    | none => (revs, cnt)
    | some r =>
      if depth + 1 > maxDepth && !r.keepBody then
        markAnc maxDepth fuel
          (updateRev revs cid (fun x => { x with purge := true }))
          r.parent (depth + 1) (cnt + 1)
      else
        markAnc maxDepth fuel revs r.parent (depth + 1) cnt

/-- The outer loop of `RevTree::prune`'s marking phase: walk the ancestry
of every leaf; when the array is sorted, stop at the first non-leaf. The
ID list is the snapshot of `_revs` being iterated. -/
def pruneMarkLoop (maxDepth : Nat) (sorted : Bool) :
    List RevId → List Rev → Nat → List Rev × Nat
  | [], revs, cnt => (revs, cnt)
  | cid :: rest, revs, cnt =>
    match revs.find? (fun r => r.revID == cid) with
    | none => pruneMarkLoop maxDepth sorted rest revs cnt
    | some r =>
      if r.leaf then
        let rc := markAnc maxDepth (revs.length + 1) revs (some cid) 0 cnt
        pruneMarkLoop maxDepth sorted rest rc.1 rc.2
      else if sorted then (revs, cnt)
      else pruneMarkLoop maxDepth sorted rest revs cnt

/-- The remote-protection phase of `RevTree::prune`: clear `kPurge` from
every Rev pointed to by `_remoteRevs`, decrementing the count. -/
def pruneRemoteClear : List (Nat × RevId) → List Rev → Nat → List Rev × Nat
  | [], revs, cnt => (revs, cnt)
  | e :: rest, revs, cnt =>
    match revs.find? (fun r => r.revID == e.2) with
    | none => pruneRemoteClear rest revs cnt
    | some r =>
      if r.purge then
        pruneRemoteClear rest
          (updateRev revs e.2 (fun x => { x with purge := false })) (cnt - 1)
      else pruneRemoteClear rest revs cnt

/-- The parent-link fixup of `RevTree::prune`: follow parent links across
Revs marked for purge. -/
def skipPurged (revs : List Rev) : Nat → Option RevId → Option RevId
  | 0, cur => cur
  | _ + 1, none => none
  | fuel + 1, some pid =>
    match revs.find? (fun r => r.revID == pid) with
    | none => some pid
    | some pr => if pr.purge then skipPurged revs fuel pr.parent else some pid

/-- `while (rev->parent && rev->parent->isMarkedForPurge()) rev->parent =
rev->parent->parent;` for every surviving Rev. Only unmarked Revs have
their parent rewritten, and the walk reads only marked Revs' (unchanged)
parents, so one simultaneous pass equals the C++ in-place loop. -/
def reparentAcrossPurged (revs : List Rev) : List Rev :=
  revs.map (fun r =>
    if r.purge then r
    else { r with parent := skipPurged revs (revs.length + 1) r.parent })

/-- `RevTree::compact`: drop the Revs marked for purge and the
`_remoteRevs` entries whose target is marked. -/
def RevTree.compact (t : RevTree) : RevTree :=
  { t with
    revs := t.revs.filter (fun r => !r.purge)
    remoteRevs := t.remoteRevs.filter (fun e =>
      match t.revs.find? (fun r => r.revID == e.2) with
      | some r => !r.purge
      | none => true)
    changed := true }

/-- `RevTree::prune(maxDepth)`. Returns `numPruned` and the tree. -/
def RevTree.prune (t : RevTree) (maxDepth : Nat) : Nat × RevTree :=
  if t.revs.length ≤ maxDepth then (0, t)
  else
    let rc1 := pruneMarkLoop maxDepth t.sorted (t.revs.map Rev.revID) t.revs 0
    if rc1.2 = 0 then (0, { t with revs := rc1.1 })
    else
      let rc2 := pruneRemoteClear t.remoteRevs rc1.1 rc1.2
      if rc2.2 = 0 then (0, { t with revs := rc2.1 })
      else
        let t2 := RevTree.compact { t with revs := reparentAcrossPurged rc2.1 }
        (rc2.2, t2)

/-- The losing/winning branch walk of `RevTree::markBranchAsNotConflict`:
clear `kIsConflict` along the branch (stopping after the first conflict
Rev on a losing branch) and keep at most one `kKeepBody` on the branch. -/
def markBranchNotConflictAux :
    Nat → List Rev → Option RevId → Bool → Bool → List Rev
  | 0, revs, _, _, _ => revs
  | _ + 1, revs, none, _, _ => revs
  | fuel + 1, revs, some rid, winning, keepBodies =>
    match revs.find? (fun r => r.revID == rid) with
    | none => revs
    | some r =>
      if r.isConflict && !winning then
        updateRev revs rid (fun x => { x with isConflict := false })
      else
        let revs1 :=
          if r.isConflict then
            updateRev revs rid (fun x => { x with isConflict := false })
          else revs
        if r.keepBody then
          if keepBodies then
            markBranchNotConflictAux fuel revs1 r.parent winning false
          else
            markBranchNotConflictAux fuel
              (updateRev revs1 rid (fun x => { x with keepBody := false }))
              r.parent winning keepBodies
        else markBranchNotConflictAux fuel revs1 r.parent winning keepBodies

/-- `RevTree::checkForResolvedConflict`: when sorted and the first Rev is a
conflict, un-conflict its whole branch (as the winning branch). -/
def RevTree.checkForResolvedConflict (t : RevTree) : RevTree :=
  match t.revs.head? with
  | some r =>
    if t.sorted && r.isConflict then
      { t with
        revs := markBranchNotConflictAux (t.revs.length + 1) t.revs
          (some r.revID) true true
        changed := true }
    else t
  | none => t

/-- The do-while loop of `RevTree::purge`: mark the Rev for purge, unlink
it from its parent, and continue into the parent as long as `confirmLeaf`
finds it has become a leaf (flagging it `kLeaf`). -/
def purgeChain : Nat → List Rev → RevId → Nat → List Rev × Nat
  | 0, revs, _, n => (revs, n)
  | fuel + 1, revs, rid, n =>
    match revs.find? (fun r => r.revID == rid) with
    | none => (revs, n)
    | some r =>
      let revs1 :=
        updateRev revs rid (fun x => { x with purge := true, parent := none })
      match r.parent with
      | none => (revs1, n + 1)
      | some pid =>
        if revs1.any (fun x => x.parent == some pid) then (revs1, n + 1)
        else
          purgeChain fuel
            (updateRev revs1 pid (fun x => { x with leaf := true })) pid (n + 1)

/-- `RevTree::purge(leafID)`: delete the named leaf and every ancestor
that becomes a leaf as a result; returns 0 and leaves the tree untouched
when the Rev is absent or not a leaf. -/
def RevTree.purge (t : RevTree) (leafID : RevId) : Nat × RevTree :=
  match t.revs.find? (fun r => r.revID == leafID) with
  | none => (0, t)
  | some r =>
    if !r.leaf then (0, t)
    else
      let rc := purgeChain (t.revs.length + 1) t.revs leafID 0
      let t1 := RevTree.compact { t with revs := rc.1 }
      let t2 := t1.checkForResolvedConflict
      (rc.2, t2)

end RT

/-- A concrete Rev for the scenario trees. -/
def RT.mkRev (g : Nat) (d : String) (p : Option RT.RevId) (lf : Bool) : RT.Rev :=
  { revID := ⟨g, d⟩, parent := p, sequence := 1, body := some [1],
    leaf := lf, deleted := false, closed := false, hasAttachments := false,
    keepBody := false, isNew := false, isConflict := false, purge := false }

/-- A root with two leaf children (the tree of scenario S3 after the
conflicting insert). -/
def RT.twoBranchTree : RT.RevTree :=
  { revs := [RT.mkRev 1 "aa" none false,
             RT.mkRev 2 "bb" (some ⟨1, "aa"⟩) true,
             RT.mkRev 2 "cc" (some ⟨1, "aa"⟩) true],
    remoteRevs := [], sorted := false, changed := false }

namespace RT

/-! Invariant machinery for `prune`. -/
/-- A per-Rev update that can only change fields other than
`revID`, `parent`, `leaf` and `keepBody` (in `prune`, only the `kPurge`
bit is written). -/
def PurgeOnlyFn (g : Rev → Rev) : Prop :=
  ∀ r, (g r).revID = r.revID ∧ (g r).parent = r.parent ∧
    (g r).leaf = r.leaf ∧ (g r).keepBody = r.keepBody

/-- Some Rev lists this one as its parent. -/
def HasChild (revs : List Rev) (rid : RevId) : Prop :=
  ∃ x ∈ revs, x.parent = some rid

/-- Every Rev marked for purge is a non-leaf without `kKeepBody`. -/
def NoLeafPurged (revs : List Rev) : Prop :=
  ∀ r ∈ revs, r.purge = true → r.leaf = false ∧ r.keepBody = false

/-- The `Leaf` flag invariant: a flagged leaf has no children. -/
def LeavesChildless (revs : List Rev) : Prop :=
  ∀ r ∈ revs, r.leaf = true → ¬ HasChild revs r.revID

/-- The number of Revs marked for purge. -/
def flaggedCount (revs : List Rev) : Nat :=
  (revs.filter (fun r => r.purge)).length

/-- A per-Rev update that never sets the purge flag. -/
def PurgeDecFn (g : Rev → Rev) : Prop :=
  ∀ r, (g r).purge = true → r.purge = true

end RT

namespace VD

/-- Flags of `DocumentFlags` relevant to `VectorDocument` updates
(`kDeleted`, `kHasAttachments`, `kConflicted`). -/
structure DocFlags where
  deleted : Bool
  hasAttachments : Bool
  conflicted : Bool
deriving DecidableEq, Repr

/-- One `Revision` in a NuDocument slot: the version-vector revID, flags,
and an opaque token standing for the Fleece `properties` body. -/
structure VRevision where
  revID : CBF.VV
  flags : DocFlags
  properties : Nat
deriving DecidableEq, Repr

/-- Modelled from the spec: a vector document is a row of remote slots
(`RemoteID` 0 is Local) plus an existence bit. `NuDocument`'s storage is
not among the sources, so the slots are an association list from remote
ID to revision, with the slot IDs forming a contiguous prefix 0,1,... as
produced by `nextRemoteID`. -/
structure VDoc where
  docExists : Bool
  revs : List (Nat × VRevision)
deriving DecidableEq, Repr

/-- Modelled from the spec: `NuDocument::remoteRevision` reads a slot. -/
def VDoc.remoteRevision (d : VDoc) (n : Nat) : Option VRevision :=
  (d.revs.find? (fun e => e.1 == n)).map Prod.snd

/-- Modelled from the spec: `NuDocument::setRemoteRevision` replaces the
slot when present, otherwise appends it. -/
def VDoc.setRemoteRevision (d : VDoc) (n : Nat) (rev : VRevision) : VDoc :=
  if (d.revs.find? (fun e => e.1 == n)).isSome then
    { d with revs := d.revs.map (fun e => if e.1 = n then (n, rev) else e) }
  else
    { d with revs := d.revs ++ [(n, rev)] }

/-- Modelled from the spec: `NuDocument::setCurrentRevision` writes the
Local slot. -/
def VDoc.setCurrentRevision (d : VDoc) (rev : VRevision) : VDoc :=
  d.setRemoteRevision 0 rev

/-- `VectorDocumentInstance::_currentVersionVector`: the Local revID as a
vector, or the empty vector when the document has none. -/
def VDoc.currentVersionVector (d : VDoc) : CBF.VV :=
  match d.remoteRevision 0 with
  | some r => r.revID
  | none => []

/-- Errors surfaced by `VectorDocument` operations (`kC4ErrorConflict`,
`error::NotFound`, `error::InvalidParameter`, `error::BadVersionVector`). -/
inductive VDErr where
  | notFound
  | invalidParameter
  | conflict
  | badVersionVector
deriving DecidableEq, Repr

/-- The new `Revision` built by `putExistingRevision` from the request:
revID from the parsed history, flags via `convertNewRevisionFlags`. -/
def mkNewRev (newVers : CBF.VV) (deleted hasAttachments : Bool)
    (props : Nat) : VRevision :=
  { revID := newVers
    flags :=
      { deleted := deleted
        hasAttachments := hasAttachments
        conflicted := false }
    properties := props }

/-- The tail of `putExistingRevision` after the order switch: a revision
from a non-Local remote is always written to that remote's slot. -/
def putFinish (d : VDoc) (rev : VRevision) (remote : Nat) : VDoc :=
  if remote ≠ 0 then d.setRemoteRevision remote rev else d

/-- `VectorDocument::putExistingRevision`: compare the incoming vector to
the current one (a non-existent document counts as Newer), then switch:
Same/Older keep Local and return ancestor 0; Newer replaces Local and
returns 1; Conflicting fails with Conflict when the target is Local and
otherwise stores the revision flagged `kConflicted`; finally a non-Local
revision is always written to its remote slot. Body validation, delta
application and the save step are outside the model. -/
def putExistingRevision (d : VDoc) (newVers : CBF.VV) (remote : Nat)
    (deleted hasAttachments : Bool) (props : Nat) :
    Except VDErr (Nat × VDoc) :=
  let newRev := mkNewRev newVers deleted hasAttachments props
  let order := if d.docExists then CBF.compareTo newVers d.currentVersionVector
               else CBF.kNewer
  if order = CBF.kSame ∨ order = CBF.kOlder then
    .ok (0, putFinish d newRev remote)
  else if order = CBF.kNewer then
    .ok (1, putFinish (d.setCurrentRevision newRev) newRev remote)
  else
    if remote = 0 then .error .conflict
    else
      .ok (1, putFinish d
        { newRev with flags := { newRev.flags with conflicted := true } }
        remote)

/-- A revID argument as classified by `_findRemote`: an ASCII form with a
comma is parsed as a whole vector, otherwise as a single version. -/
inductive RevIDQuery where
  | vec (v : CBF.VV)
  | single (ver : CBF.Version)
deriving DecidableEq, Repr

/-- The per-slot test of `_findRemote`: a vector query is an exact revID
match; a single-version query matches a nonempty vector whose first
version equals it. -/
def queryMatches (q : RevIDQuery) (rev : VRevision) : Bool :=
  match q with
  | .vec v => rev.revID == v
  | .single ver =>
    match rev.revID with
    | [] => false
    | v0 :: _ => v0 == ver

/-- The slot walk of `_findRemote`: scan remotes upward from `n`,
stopping at the first empty slot. -/
def VDoc.findRemoteAux (d : VDoc) (q : RevIDQuery) :
    Nat → Nat → Option (Nat × VRevision)
  | 0, _ => none
  | fuel + 1, n =>
    match d.remoteRevision n with
    | none => none
    | some rev =>
      if queryMatches q rev then some (n, rev)
      else d.findRemoteAux q fuel (n + 1)

/-- `VectorDocumentInstance::_findRemote`: start the walk at Local. The
walk visits at most one slot per stored revision plus the terminating
empty one, so `revs.length + 1` steps of fuel are enough. -/
def VDoc.findRemote (d : VDoc) (q : RevIDQuery) : Option (Nat × VRevision) :=
  d.findRemoteAux q (d.revs.length + 1) 0

/-- `VectorDocument::resolveConflict`: find both revisions (else
NotFound), require them distinct (else InvalidParameter), pick as
"local" whichever of the two is Local — defaulting to the loser when
neither is — require the other to be `kConflicted` (else Conflict), then
replace Local with the merged revision and clear `kConflicted` on the
remote slot. -/
def resolveConflict (d : VDoc) (winning losing : RevIDQuery)
    (mergedBody : Option Nat) (mergedDeleted mergedHasAtt : Bool) :
    Except VDErr VDoc :=
  match d.findRemote winning, d.findRemote losing with
  | none, _ => .error .notFound
  | some _, none => .error .notFound
  | some won, some lost =>
    if won.1 = lost.1 then .error .invalidParameter
    else
      let localWon := won.1 == 0
      let localRev := if localWon then won.2 else lost.2
      let remotePair := if localWon then lost else won
      if remotePair.2.flags.conflicted = false then .error .conflict
      else
        match CBF.mergedWith localRev.revID remotePair.2.revID with
        | .error _ => .error .badVersionVector
        | .ok merged0 =>
          match CBF.incrementGen merged0 CBF.kMePeerID with
          | .error _ => .error .badVersionVector
          | .ok mergedVers =>
            let newLocal : VRevision :=
              { revID := mergedVers
                flags :=
                  { deleted := mergedDeleted
                    hasAttachments := mergedHasAtt
                    conflicted := false }
                properties := mergedBody.getD won.2.properties }
            let d1 := d.setCurrentRevision newLocal
            .ok (d1.setRemoteRevision remotePair.1
              { remotePair.2 with flags :=
                  { remotePair.2.flags with conflicted := false } })

end VD

/-- A document whose Local revision has vector 2@A. -/
def VD.C5doc : VD.VDoc :=
  { docExists := true
    revs := [(0, ⟨[⟨2, "A"⟩], ⟨false, false, false⟩, 1⟩)] }

/-- A document whose Local vector is 1@A, with remote slot 1 holding 1@B
flagged `kConflicted` and remote slot 2 holding 1@C unflagged. -/
def VD.C6doc : VD.VDoc :=
  { docExists := true
    revs := [(0, ⟨[⟨1, "A"⟩], ⟨false, false, false⟩, 10⟩),
             (1, ⟨[⟨1, "B"⟩], ⟨false, false, true⟩, 11⟩),
             (2, ⟨[⟨1, "C"⟩], ⟨false, false, false⟩, 12⟩)] }

namespace UPG

/-- The new-style `Version` of `Version.cc`: a generation and a numeric
`peerID`. -/
structure VersionN where
  gen : Nat
  author : Nat
deriving DecidableEq, Repr

/-- The local peer's placeholder ID (`kMePeerID {0}`). -/
def kMePeer : Nat := 0

/-- `kLegacyPeerID {0x7777777}`: the fake peer ID used for versions
migrated from rev-tree revIDs. -/
def kLegacyPeerID : Nat := 0x7777777

/-- A lowercase hex digit. -/
def hexChar (n : Nat) : Char :=
  if n < 10 then Char.ofNat (48 + n) else Char.ofNat (87 + n)

/-- Hex rendering, most-significant digit first, no leading zeros
(fuel-based division loop). -/
def hexCore : Nat → Nat → List Char → List Char
  | 0, _, acc => acc
  | fuel + 1, n, acc =>
    let acc1 := hexChar (n % 16) :: acc
    if n < 16 then acc1 else hexCore fuel (n / 16) acc1

/-- `slice::writeHex` of a number, as used by `Version::writeASCII`. -/
def hexStr (n : Nat) : String := String.mk (hexCore (n + 1) n [])

/-- `Version::writeASCII`: the generation in hex, `@`, then the author
in hex — with `*` standing for the local peer. -/
def VersionN.writeASCII (v : VersionN) (myID : Nat) : String :=
  let author := if v.author ≠ kMePeer then v.author else myID
  hexStr v.gen ++ "@" ++ (if author ≠ kMePeer then hexStr author else "*")

/-- Modelled from the spec: `VersionVector::add` appends the version at
the end of the vector (the new `VersionVector.cc` is not among the
sources). -/
def vvAdd (vv : List VersionN) (v : VersionN) : List VersionN := vv ++ [v]

/-- Modelled from the spec: the vector's ASCII form joins its versions
in storage order with commas. -/
def vvASCII (vv : List VersionN) (myID : Nat) : String :=
  String.intercalate "," (vv.map (fun v => v.writeASCII myID))

/-- The vector construction of `Database::upgradeDocumentVersioning`:
start empty; if a common-ancestor base exists, add
`(base.gen, kLegacyPeerID)` and subtract its generation from
`localChanges = currentRev.gen`; if `localChanges > 0` (a signed `int`),
add `(localChanges, kMePeerID)`. -/
def upgradeVersionVector (currentGen : Nat) (baseGen : Option Nat) :
    List VersionN :=
  match baseGen with
  | some bg =>
    let vv := vvAdd [] ⟨bg, kLegacyPeerID⟩
    let localChanges : Int := (currentGen : Int) - (bg : Int)
    if 0 < localChanges then vvAdd vv ⟨localChanges.toNat, kMePeer⟩ else vv
  | none =>
    let localChanges : Int := (currentGen : Int)
    if 0 < localChanges then vvAdd [] ⟨localChanges.toNat, kMePeer⟩ else []

/-- The remote-revision vector built by `upgradeRemoteRevs` for a
non-current remote rev: the rev's generation under the legacy peer. -/
def legacyRemoteVector (remoteGen : Nat) : List VersionN :=
  vvAdd [] ⟨remoteGen, kLegacyPeerID⟩

end UPG

namespace C4D

/-- The input stream fed to the digest in `generateDocRevID`, tagged
with the hash function used (the hash itself is a crypto primitive
outside the program). -/
inductive DigestInput where
  | sha1In (bytes : List Nat)
  | md5In (bytes : List Nat)
deriving DecidableEq, Repr

/-- Modelled from the spec: parsing an ASCII rev-tree revID
`<generation>-<digest>` — a nonempty run of decimal digits followed by a
dash (`revidBuffer`'s parser is not among the sources). -/
def parseRevIDGen (bytes : List Nat) : Option Nat :=
  let digits := bytes.takeWhile (fun b => 48 ≤ b && b ≤ 57)
  if digits.isEmpty then none
  else
    match bytes.drop digits.length with
    | 45 :: _ => some (digits.foldl (fun a b => a * 10 + (b - 48)) 0)
    | _ => none

/-- `generateDocRevID(body, parentRevID, deleted)`: the digest input is
one byte `revLen = min(parent.size, 255)`, then `revLen` bytes of the
parent, then one deletion byte, then the body — except that the legacy
MD5 path skips the length byte when `revLen` is 0. The generation is
the parent's parsed generation + 1, or 1 with no parent; a parent that
fails to parse is an error (`none`). -/
def generateDocRevID (oldStyle : Bool) (body : List Nat)
    (parent : Option (List Nat)) (deleted : Bool) :
    Option (Nat × DigestInput) :=
  let pbytes := parent.getD []
  let revLen := min pbytes.length 255
  let delByte := if deleted then 1 else 0
  let input :=
    if oldStyle then
      DigestInput.md5In ((if 0 < revLen then [revLen] else []) ++
        pbytes.take revLen ++ [delByte] ++ body)
    else
      DigestInput.sha1In ([revLen] ++ pbytes.take revLen ++ [delByte] ++ body)
  match parent with
  | none => some (1, input)
  | some p =>
    match parseRevIDGen p with
    | none => none
    | some g => some (g + 1, input)

/-- The digest input exactly as the claim words it: one length byte
clamped to 255 followed by the whole parent revID, then the deletion
byte and the body (legacy MD5 omitting the length byte for an empty
parent). Stated from the spec for comparison with the source
definition. -/
def specDigestInput (oldStyle : Bool) (body pbytes : List Nat)
    (deleted : Bool) : DigestInput :=
  let lenByte := min pbytes.length 255
  let delByte := if deleted then 1 else 0
  if oldStyle then
    DigestInput.md5In ((if 0 < pbytes.length then [lenByte] else []) ++
      pbytes ++ [delByte] ++ body)
  else
    DigestInput.sha1In ([lenByte] ++ pbytes ++ [delByte] ++ body)

/-- The amended description of the digest input: the parent revID is
truncated to its first 255 bytes before hashing. -/
def specDigestInputTrunc (oldStyle : Bool) (body pbytes : List Nat)
    (deleted : Bool) : DigestInput :=
  let revLen := min pbytes.length 255
  let delByte := if deleted then 1 else 0
  if oldStyle then
    DigestInput.md5In ((if 0 < revLen then [revLen] else []) ++
      pbytes.take revLen ++ [delByte] ++ body)
  else
    DigestInput.sha1In ([revLen] ++ pbytes.take revLen ++ [delByte] ++ body)

end C4D

namespace CBF

lemma mirrorOrder_mirrorOrder (o : Nat) : mirrorOrder (mirrorOrder o) = o := by
  simp only [mirrorOrder, kOlder, kNewer]
  split_ifs <;> omega

lemma mirrorOrder_eq_zero (o : Nat) : mirrorOrder o = 0 ↔ o = 0 := by
  simp only [mirrorOrder, kOlder, kNewer]
  split_ifs <;> simp_all

lemma mirrorOrder_eq_one (o : Nat) : mirrorOrder o = 1 ↔ o = 2 := by
  simp only [mirrorOrder, kOlder, kNewer]
  split_ifs <;> simp_all

lemma mirrorOrder_eq_three (o : Nat) : mirrorOrder o = 3 ↔ o = 3 := by
  simp only [mirrorOrder, kOlder, kNewer]
  split_ifs <;> simp_all

lemma or_one_lt_four {o : Nat} (ho : o < 4) : o ||| 1 < 4 := by
  interval_cases o <;> decide

lemma or_two_lt_four {o : Nat} (ho : o < 4) : o ||| 2 < 4 := by
  interval_cases o <;> decide

lemma mirrorOrder_or_one {o : Nat} (ho : o < 4) :
    mirrorOrder (o ||| 1) = mirrorOrder o ||| 2 := by
  interval_cases o <;> decide

lemma mirrorOrder_or_two {o : Nat} (ho : o < 4) :
    mirrorOrder (o ||| 2) = mirrorOrder o ||| 1 := by
  interval_cases o <;> decide

lemma or_one_conflicting {o : Nat} (ho : o < 4) :
    (o ||| 1 = 3) ↔ (mirrorOrder o ||| 2 = 3) := by
  interval_cases o <;> decide

lemma or_two_conflicting {o : Nat} (ho : o < 4) :
    (o ||| 2 = 3) ↔ (mirrorOrder o ||| 1 = 3) := by
  interval_cases o <;> decide

lemma genOfAuthor_cons_self (w : Version) (tl : VV) :
    genOfAuthor (w :: tl) w.author = w.gen := by
  unfold genOfAuthor findPeer
  rw [List.find?_cons_of_pos _ (by simp)]

lemma genOfAuthor_cons_ne (w : Version) (tl : VV) (a : String)
    (h : w.author ≠ a) : genOfAuthor (w :: tl) a = genOfAuthor tl a := by
  unfold genOfAuthor findPeer
  rw [List.find?_cons_of_neg _ (by simp [h])]

/-- When a version is looked up in a vector with distinct authors that
contains it, `genOfAuthor` returns its generation. -/
lemma genOfAuthor_of_mem {l : VV} {v : Version} (hv : v ∈ l)
    (hnd : (l.map Version.author).Nodup) : genOfAuthor l v.author = v.gen := by
  induction l with
  | nil => cases hv
  | cons w tl ih =>
    rcases List.mem_cons.mp hv with rfl | hvt
    · exact genOfAuthor_cons_self _ _
    · have hne : w.author ≠ v.author := by
        intro he
        have hmem : v.author ∈ tl.map Version.author := List.mem_map_of_mem _ hvt
        rw [List.map_cons, List.nodup_cons] at hnd
        exact hnd.1 (he ▸ hmem)
      have htl : (tl.map Version.author).Nodup := by
        rw [List.map_cons, List.nodup_cons] at hnd
        exact hnd.2
      rw [genOfAuthor_cons_ne w tl v.author hne]
      exact ih hvt htl

/-- The accumulation loops of the two swapped comparisons walk the same
aligned pairs with the bits mirrored. -/
lemma compareLoop_mirror (a b : VV) {la lb : VV}
    (h : List.Forall₂ (fun x y =>
      genOfAuthor b x.author = y.gen ∧ genOfAuthor a y.author = x.gen) la lb) :
    ∀ o : Nat, o < 4 →
    compareLoop b o la = mirrorOrder (compareLoop a (mirrorOrder o) lb) := by
  induction h with
  | nil =>
    intro o ho
    simp [compareLoop, mirrorOrder_mirrorOrder]
  | @cons x y la1 lb1 hxy htail ih =>
    intro o ho
    obtain ⟨hgb, hga⟩ := hxy
    rcases Nat.lt_trichotomy x.gen y.gen with hlt | heq | hgt
    · have hyx : ¬ y.gen < x.gen := by omega
      simp only [compareLoop, kSame, kOlder, kNewer, kConflicting, hgb, hga,
        if_pos hlt, if_neg hyx, if_pos (show x.gen < y.gen from hlt)]
      by_cases hc : o ||| 1 = 3
      · have hc2 : mirrorOrder o ||| 2 = 3 := (or_one_conflicting ho).mp hc
        rw [if_pos hc, if_pos hc2, hc, hc2]
        decide
      · have hc2 : ¬ (mirrorOrder o ||| 2 = 3) :=
          fun h2 => hc ((or_one_conflicting ho).mpr h2)
        rw [if_neg hc, if_neg hc2, ← mirrorOrder_or_one ho]
        exact ih _ (or_one_lt_four ho)
    · have hnlt : ¬ x.gen < y.gen := by omega
      have hngt : ¬ y.gen < x.gen := by omega
      simp only [compareLoop, kSame, kOlder, kNewer, kConflicting, hgb, hga,
        if_neg hnlt, if_neg hngt, heq, lt_self_iff_false, if_false]
      by_cases h0 : o = 0
      · have h0m : mirrorOrder o = 0 := (mirrorOrder_eq_zero o).mpr h0
        rw [if_pos h0, if_pos h0m, h0m, h0]
        decide
      · have h0m : ¬ mirrorOrder o = 0 :=
          fun hm => h0 ((mirrorOrder_eq_zero o).mp hm)
        rw [if_neg h0, if_neg h0m]
        exact ih o ho
    · have hxy2 : ¬ x.gen < y.gen := by omega
      simp only [compareLoop, kSame, kOlder, kNewer, kConflicting, hgb, hga,
        if_neg hxy2, if_pos (show y.gen < x.gen from hgt)]
      by_cases hc : o ||| 2 = 3
      · have hc2 : mirrorOrder o ||| 1 = 3 := (or_two_conflicting ho).mp hc
        rw [if_pos hc, if_pos hc2, hc, hc2]
        decide
      · have hc2 : ¬ (mirrorOrder o ||| 1 = 3) :=
          fun h2 => hc ((or_two_conflicting ho).mpr h2)
        rw [if_neg hc, if_neg hc2, ← mirrorOrder_or_two ho]
        exact ih _ (or_two_lt_four ho)

/-- Swapping the arguments of `compareTo` mirrors the result, provided the
two vectors list the same authors in the same order (with no duplicate
author, the stated vector invariant). -/
lemma compareTo_mirror (a b : VV)
    (hauth : a.map Version.author = b.map Version.author)
    (hnd : (a.map Version.author).Nodup) :
    compareTo a b = mirrorOrder (compareTo b a) := by
  have hlen : a.length = b.length := by
    have := congrArg List.length hauth
    simpa using this
  have hndb : (b.map Version.author).Nodup := hauth ▸ hnd
  have hzip : ∀ x y, (x, y) ∈ a.zip b → x.author = y.author := by
    clear hlen hnd hndb
    induction a generalizing b with
    | nil => intro x y h; simp at h
    | cons p tla ih =>
      intro x y h
      cases b with
      | nil => simp at h
      | cons q tlb =>
        simp only [List.map_cons, List.cons.injEq] at hauth
        rw [List.zip_cons_cons] at h
        rcases List.mem_cons.mp h with he | ht
        · injection he with h1 h2
          subst h1
          subst h2
          exact hauth.1
        · exact ih tlb hauth.2 x y ht
  have hpairs : List.Forall₂ (fun x y =>
      genOfAuthor b x.author = y.gen ∧ genOfAuthor a y.author = x.gen) a b := by
    rw [List.forall₂_iff_zip]
    refine ⟨hlen, fun {x y} hm => ?_⟩
    have hxa : x ∈ a := (List.of_mem_zip hm).1
    have hyb : y ∈ b := (List.of_mem_zip hm).2
    have hxy : x.author = y.author := hzip x y hm
    constructor
    · rw [hxy]
      exact genOfAuthor_of_mem hyb hndb
    · rw [← hxy]
      exact genOfAuthor_of_mem hxa hnd
  have hswap : List.Forall₂ (fun y x =>
      genOfAuthor a y.author = x.gen ∧ genOfAuthor b x.author = y.gen) b a :=
    List.Forall₂.imp (fun _ _ h => ⟨h.2, h.1⟩) hpairs.flip
  unfold compareTo
  rw [hlen]
  simp only [lt_self_iff_false, if_false]
  have h1 := compareLoop_mirror b a hswap kSame (by decide)
  have h0 : mirrorOrder kSame = kSame := by decide
  rw [h0] at h1
  rw [h1, mirrorOrder_mirrorOrder]

end CBF

/-- C1: the version-vector comparison is *not* symmetric as a lattice as
stated: two single-version vectors with distinct authors each compare
`kNewer` against the other (refuting `Older ⇔ Newer` on swap); a pair of
equal-author-set vectors compares `kSame` one way and `kNewer` the other
(refuting `Same ⇔ Same`); and a pair compares `kConflicting` one way and
`kSame` the other (refuting `Conflicting ⇔ Conflicting`). -/
theorem C1_compare_lattice_counterexample :
    (CBF.compareTo [⟨1, "X"⟩] [⟨1, "Y"⟩] = CBF.kNewer ∧
     CBF.compareTo [⟨1, "Y"⟩] [⟨1, "X"⟩] ≠ CBF.kOlder) ∧
    (CBF.compareTo [⟨1, "X"⟩, ⟨1, "Y"⟩] [⟨2, "Y"⟩, ⟨1, "X"⟩] = CBF.kSame ∧
     CBF.compareTo [⟨2, "Y"⟩, ⟨1, "X"⟩] [⟨1, "X"⟩, ⟨1, "Y"⟩] ≠ CBF.kSame) ∧
    (CBF.compareTo [⟨1, "Y"⟩, ⟨2, "Z"⟩, ⟨1, "X"⟩] [⟨1, "X"⟩, ⟨3, "Y"⟩, ⟨1, "Z"⟩]
        = CBF.kConflicting ∧
     CBF.compareTo [⟨1, "X"⟩, ⟨3, "Y"⟩, ⟨1, "Z"⟩] [⟨1, "Y"⟩, ⟨2, "Z"⟩, ⟨1, "X"⟩]
        ≠ CBF.kConflicting) := by
  decide

/-- C1 (amended): the lattice symmetry of `VersionVector::compareTo` holds
for every pair of vectors that list the same authors in the same order
(with no duplicated author): `a.compareTo(b) == Same ⇔ b.compareTo(a) ==
Same`, `a.compareTo(b) == Older ⇔ b.compareTo(a) == Newer`, and
`a.compareTo(b) == Conflicting ⇔ b.compareTo(a) == Conflicting`. -/
theorem C1_compare_lattice_amended (a b : CBF.VV)
    (hauth : a.map CBF.Version.author = b.map CBF.Version.author)
    (hnd : (a.map CBF.Version.author).Nodup) :
    (CBF.compareTo a b = CBF.kSame ↔ CBF.compareTo b a = CBF.kSame) ∧
    (CBF.compareTo a b = CBF.kOlder ↔ CBF.compareTo b a = CBF.kNewer) ∧
    (CBF.compareTo a b = CBF.kConflicting ↔
      CBF.compareTo b a = CBF.kConflicting) := by
  have hm := CBF.compareTo_mirror a b hauth hnd
  refine ⟨?_, ?_, ?_⟩
  · rw [hm]
    exact CBF.mirrorOrder_eq_zero _
  · rw [hm]
    exact CBF.mirrorOrder_eq_one _
  · rw [hm]
    exact CBF.mirrorOrder_eq_three _

/-- Witness for C1 (amended) at the concrete aligned pair
`a = 2@X,1@Y`, `b = 1@X,2@Y` (the `Conflicting` scenario S4). -/
theorem C1_compare_lattice_witness :
    (([⟨2, "X"⟩, ⟨1, "Y"⟩] : CBF.VV).map CBF.Version.author =
      ([⟨1, "X"⟩, ⟨2, "Y"⟩] : CBF.VV).map CBF.Version.author) ∧
    ((([⟨2, "X"⟩, ⟨1, "Y"⟩] : CBF.VV).map CBF.Version.author).Nodup) ∧
    (CBF.compareTo [⟨2, "X"⟩, ⟨1, "Y"⟩] [⟨1, "X"⟩, ⟨2, "Y"⟩] = CBF.kConflicting ↔
      CBF.compareTo [⟨1, "X"⟩, ⟨2, "Y"⟩] [⟨2, "X"⟩, ⟨1, "Y"⟩] = CBF.kConflicting) :=
  ⟨by decide, by decide,
    (C1_compare_lattice_amended [⟨2, "X"⟩, ⟨1, "Y"⟩] [⟨1, "X"⟩, ⟨2, "Y"⟩]
      (by decide) (by decide)).2.2⟩

namespace CBF

/-- Once the accumulator holds exactly one of the `kOlder`/`kNewer` bits,
a run of the loop over versions whose generations all match the other
vector leaves the accumulator unchanged. -/
lemma compareLoop_stable (other : VV) {o : Nat} (ho : o = 1 ∨ o = 2) :
    ∀ l : VV, (∀ x ∈ l, x.gen = genOfAuthor other x.author) →
    compareLoop other o l = o := by
  intro l
  induction l with
  | nil => intro _; rfl
  | cons x rest ih =>
    intro hall
    have hx : x.gen = genOfAuthor other x.author := hall x (List.mem_cons_self x rest)
    have h1 : ¬ x.gen < genOfAuthor other x.author := by omega
    have h2 : ¬ x.gen > genOfAuthor other x.author := by omega
    have h0 : ¬ o = kSame := by
      simp only [kSame]
      omega
    simp only [compareLoop, if_neg h1, if_neg h2, if_neg h0]
    exact ih (fun y hy => hall y (List.mem_cons_of_mem x hy))

lemma findPeer_some_author {vv : VV} {p : String} {x : Version}
    (h : findPeer vv p = some x) : x.author = p := by
  have := List.find?_some h
  simpa using this

lemma findPeer_some_mem {vv : VV} {p : String} {x : Version}
    (h : findPeer vv p = some x) : x ∈ vv :=
  List.mem_of_find?_eq_some h

lemma genOfAuthor_eq_of_findPeer {vv : VV} {p : String} {x : Version}
    (h : findPeer vv p = some x) : genOfAuthor vv p = x.gen := by
  unfold genOfAuthor
  rw [h]

lemma genOfAuthor_eq_zero_of_findPeer_none {vv : VV} {p : String}
    (h : findPeer vv p = none) : genOfAuthor vv p = 0 := by
  unfold genOfAuthor
  rw [h]

end CBF

/-- C3: for every version vector `v` and valid, non-merge-marker peer `p`
(whose generation does not overflow `uint64_t`), `incrementGen` puts `p` at
the head of the vector with generation `old.gen(p)+1` (1 when `p` was
absent), the result compares `Newer` against the old vector, and its
`gen(p)` is `old.gen(p)+1`; and when `p`'s existing entry is a merge-marker
version (`gen = 0`), `incrementGen` fails with `BadVersionVector`. -/
theorem C3_incrementGen_monotone (v : CBF.VV) (p : String)
    (hnd : (v.map CBF.Version.author).Nodup)
    (hvalid : 1 ≤ p.length ∧ p.length ≤ CBF.kMaxAuthorSize ∧
      p.toList.all (fun c => c ≠ ',' && c ≠ Char.ofNat 0) = true)
    (hwrap : CBF.genOfAuthor v p + 1 < 2 ^ 64) :
    (∀ x, CBF.findPeer v p = some x → x.gen = 0 →
      CBF.incrementGen v p = .error .badVersionVector) ∧
    ((∀ x, CBF.findPeer v p = some x → x.gen ≠ 0) →
      ∃ v2, CBF.incrementGen v p = .ok v2 ∧
        v2.head? = some ⟨CBF.genOfAuthor v p + 1, p⟩ ∧
        CBF.genOfAuthor v2 p = CBF.genOfAuthor v p + 1 ∧
        CBF.compareTo v2 v = CBF.kNewer) := by
  constructor
  · intro x hx hx0
    have hm : x.isMerge = true := by
      simp [CBF.Version.isMerge, hx0]
    simp [CBF.incrementGen, hx, hm]
  · intro hnm
    match hfp : CBF.findPeer v p with
    | some x =>
      have hx0 : x.gen ≠ 0 := hnm x hfp
      have hxa : x.author = p := CBF.findPeer_some_author hfp
      have hxm : x ∈ v := CBF.findPeer_some_mem hfp
      have hgen : CBF.genOfAuthor v p = x.gen := CBF.genOfAuthor_eq_of_findPeer hfp
      have hmerge : x.isMerge = false := by
        simp [CBF.Version.isMerge, hx0]
      have hmod : (x.gen + 1) % 2 ^ 64 = x.gen + 1 :=
        Nat.mod_eq_of_lt (by omega)
      refine ⟨⟨x.gen + 1, p⟩ :: v.eraseP (fun y => y.author == p), ?_, ?_, ?_, ?_⟩
      · simp [CBF.incrementGen, hfp, hmerge, hmod, hxa]
        omega
      · simp [hgen]
      · rw [hgen]
        exact CBF.genOfAuthor_cons_self ⟨x.gen + 1, p⟩ _
      · have hlen : (v.eraseP (fun y => y.author == p)).length + 1 = v.length :=
          List.length_eraseP_add_one hxm (by simp [hxa])
        unfold CBF.compareTo
        have hlen2 : (⟨x.gen + 1, p⟩ :: v.eraseP (fun y => y.author == p) : CBF.VV).length
            = v.length := by
          simp only [List.length_cons]
          omega
        rw [hlen2]
        simp only [lt_self_iff_false, if_false]
        have hga : CBF.genOfAuthor v (⟨x.gen + 1, p⟩ : CBF.Version).author = x.gen := by
          simpa using hgen
        simp only [CBF.compareLoop, hga]
        have hnl : ¬ x.gen + 1 < x.gen := by omega
        have hng : x.gen + 1 > x.gen := by omega
        rw [if_neg hnl, if_pos hng]
        have hor : CBF.kSame ||| CBF.kNewer = 2 := by decide
        rw [hor]
        rw [if_neg (by decide)]
        exact CBF.compareLoop_stable v (Or.inr rfl) _
          (fun y hy => (CBF.genOfAuthor_of_mem
            ((List.eraseP_sublist v).mem hy) hnd).symm)
    | none =>
      have hgen0 : CBF.genOfAuthor v p = 0 :=
        CBF.genOfAuthor_eq_zero_of_findPeer_none hfp
      have hval : (⟨1, p⟩ : CBF.Version).validate = .ok () := by
        unfold CBF.Version.validate
        rw [if_neg (by simp; omega), if_neg (by simp [CBF.Version.isMerge])]
        rw [if_pos hvalid.2.2]
      refine ⟨⟨1, p⟩ :: v, ?_, ?_, ?_, ?_⟩
      · simp [CBF.incrementGen, hfp, hval]
      · simp [hgen0]
      · rw [hgen0]
        exact CBF.genOfAuthor_cons_self ⟨1, p⟩ v
      · unfold CBF.compareTo
        have h1 : ¬ (⟨1, p⟩ :: v : CBF.VV).length < v.length := by
          simp only [List.length_cons]
          omega
        have h2 : v.length < (⟨1, p⟩ :: v : CBF.VV).length := by
          simp only [List.length_cons]
          omega
        rw [if_neg h1, if_pos h2]
        have hga : CBF.genOfAuthor v (⟨1, p⟩ : CBF.Version).author = 0 := by
          simpa using hgen0
        simp only [CBF.compareLoop, hga]
        rw [if_neg (by omega), if_pos (by omega)]
        have hor : CBF.kNewer ||| CBF.kNewer = 2 := by decide
        rw [hor]
        rw [if_neg (by decide)]
        exact CBF.compareLoop_stable v (Or.inr rfl) _
          (fun y hy => (CBF.genOfAuthor_of_mem hy hnd).symm)

/-- Witness for C3 at `v = 2@A,5@B`, `p = "B"`. -/
theorem C3_incrementGen_witness :
    (([⟨2, "A"⟩, ⟨5, "B"⟩] : CBF.VV).map CBF.Version.author).Nodup ∧
    (1 ≤ "B".length ∧ "B".length ≤ CBF.kMaxAuthorSize ∧
      "B".toList.all (fun c => c ≠ ',' && c ≠ Char.ofNat 0) = true) ∧
    CBF.genOfAuthor [⟨2, "A"⟩, ⟨5, "B"⟩] "B" + 1 < 2 ^ 64 ∧
    ((∀ x, CBF.findPeer [⟨2, "A"⟩, ⟨5, "B"⟩] "B" = some x → x.gen ≠ 0) →
      ∃ v2, CBF.incrementGen [⟨2, "A"⟩, ⟨5, "B"⟩] "B" = .ok v2 ∧
        v2.head? = some ⟨CBF.genOfAuthor [⟨2, "A"⟩, ⟨5, "B"⟩] "B" + 1, "B"⟩ ∧
        CBF.genOfAuthor v2 "B" = CBF.genOfAuthor [⟨2, "A"⟩, ⟨5, "B"⟩] "B" + 1 ∧
        CBF.compareTo v2 [⟨2, "A"⟩, ⟨5, "B"⟩] = CBF.kNewer) :=
  ⟨by decide, by decide, by decide,
    (C3_incrementGen_monotone [⟨2, "A"⟩, ⟨5, "B"⟩] "B"
      (by decide) (by decide) (by decide)).2⟩

namespace CBF

/-! Lemmas about `versionMapGet` and `mergedWith`. -/
lemma foldl_vmg_no_author (a : String) (init : Nat) :
    ∀ tl : VV, (∀ y ∈ tl, y.author ≠ a) →
    tl.foldl (fun g v => if v.author = a then v.gen else g) init = init := by
  intro tl
  induction tl generalizing init with
  | nil => intro _; rfl
  | cons w tl2 ih =>
    intro h
    have hw : w.author ≠ a := h w (List.mem_cons_self w tl2)
    simp only [List.foldl_cons, if_neg hw]
    exact ih init (fun y hy => h y (List.mem_cons_of_mem w hy))

lemma versionMapGet_of_mem {l : VV} {x : Version} (hx : x ∈ l)
    (hnd : (l.map Version.author).Nodup) : versionMapGet l x.author = x.gen := by
  induction l with
  | nil => cases hx
  | cons w tl ih =>
    rw [List.map_cons, List.nodup_cons] at hnd
    rcases List.mem_cons.mp hx with rfl | hxt
    · unfold versionMapGet
      simp only [List.foldl_cons, if_pos rfl]
      exact foldl_vmg_no_author x.author x.gen tl
        (fun y hy he => hnd.1 (he ▸ List.mem_map_of_mem _ hy))
    · have hwa : w.author ≠ x.author := by
        intro he
        exact hnd.1 (he ▸ List.mem_map_of_mem _ hxt)
      unfold versionMapGet
      simp only [List.foldl_cons, if_neg hwa]
      exact ih hxt hnd.2

lemma versionMapGet_of_not_mem {l : VV} {p : String}
    (h : p ∉ l.map Version.author) : versionMapGet l p = 0 :=
  foldl_vmg_no_author p 0 l
    (fun _ hy he => h (he ▸ List.mem_map_of_mem _ hy))

lemma genOfAuthor_of_not_mem {l : VV} {p : String}
    (h : p ∉ l.map Version.author) : genOfAuthor l p = 0 := by
  unfold genOfAuthor findPeer
  rw [List.find?_eq_none.mpr]
  intro y hy
  simp only [beq_iff_eq]
  exact fun he => h (he ▸ List.mem_map_of_mem _ hy)

lemma genOfAuthor_eq_versionMapGet (l : VV) (p : String)
    (hnd : (l.map Version.author).Nodup) : genOfAuthor l p = versionMapGet l p := by
  by_cases hp : p ∈ l.map Version.author
  · obtain ⟨x, hx, rfl⟩ := List.mem_map.mp hp
    rw [genOfAuthor_of_mem hx hnd, versionMapGet_of_mem hx hnd]
  · rw [genOfAuthor_of_not_mem hp, versionMapGet_of_not_mem hp]

lemma exists_of_versionMapGet_pos {l : VV} {p : String}
    (hnd : (l.map Version.author).Nodup) (h : versionMapGet l p ≠ 0) :
    ∃ u ∈ l, u.author = p ∧ u.gen = versionMapGet l p := by
  by_cases hp : p ∈ l.map Version.author
  · obtain ⟨u, hu, rfl⟩ := List.mem_map.mp hp
    exact ⟨u, hu, rfl, (versionMapGet_of_mem hu hnd).symm⟩
  · exact absurd (versionMapGet_of_not_mem hp) h

/-- Once the accumulator is `kSame` or `kNewer`, a loop over versions none
of which is older than the other vector's entry keeps it in
`{kSame, kNewer}`. -/
lemma compareLoop_no_older (other : VV) :
    ∀ (l : VV) (o : Nat), (o = 0 ∨ o = 2) →
    (∀ x ∈ l, genOfAuthor other x.author ≤ x.gen) →
    (compareLoop other o l = 0 ∨ compareLoop other o l = 2) := by
  intro l
  induction l with
  | nil => intro o ho _; exact ho
  | cons x rest ih =>
    intro o ho hall
    have hx : genOfAuthor other x.author ≤ x.gen :=
      hall x (List.mem_cons_self x rest)
    have h1 : ¬ x.gen < genOfAuthor other x.author := by omega
    by_cases h2 : x.gen > genOfAuthor other x.author
    · have hor : o ||| kNewer = 2 := by
        rcases ho with rfl | rfl <;> decide
      simp only [compareLoop, if_neg h1, if_pos h2, hor]
      rw [if_neg (by decide)]
      exact ih 2 (Or.inr rfl) (fun y hy => hall y (List.mem_cons_of_mem x hy))
    · simp only [compareLoop, if_neg h1, if_neg h2]
      by_cases h0 : o = kSame
      · rw [if_pos h0]
        exact ho
      · rw [if_neg h0]
        exact ih o ho (fun y hy => hall y (List.mem_cons_of_mem x hy))

/-- Merging a vector with itself keeps exactly its own versions. -/
lemma mergedAux_self (gA gB : String → Nat) :
    ∀ l : VV, (∀ x ∈ l, gA x.author = x.gen) → (∀ x ∈ l, gB x.author = x.gen) →
    (∀ x ∈ l, x.validate = .ok ()) →
    mergedAux gA gB l l = .ok l := by
  intro l
  induction l with
  | nil => intro _ _ _; rfl
  | cons x xs ih =>
    intro hA hB hv
    have hAx : gA x.author = x.gen := hA x (List.mem_cons_self x xs)
    have hBx : gB x.author = x.gen := hB x (List.mem_cons_self x xs)
    have hvx : x.validate = .ok () := hv x (List.mem_cons_self x xs)
    have hle : gB x.author ≤ x.gen := le_of_eq hBx
    have hnlt : ¬ gA x.author < x.gen := by omega
    have hih : mergedAux gA gB xs xs = .ok xs :=
      ih (fun y hy => hA y (List.mem_cons_of_mem x hy))
         (fun y hy => hB y (List.mem_cons_of_mem x hy))
         (fun y hy => hv y (List.mem_cons_of_mem x hy))
    simp [mergedAux, vvAppend, hvx, hle, hnlt, hih, Except.bind, Except.map]

/-- Characterization of the `other`-side-only tail of the merge walk. -/
lemma mergedTail_spec (gA : String → Nat) :
    ∀ lb : VV, (∀ y ∈ lb, gA y.author = y.gen → False → True) →
    (∀ y ∈ lb, y.validate = .ok ()) →
    (lb.map Version.author).Nodup →
    ∃ m, mergedTail gA lb = .ok m ∧
      (∀ w ∈ m, w ∈ lb ∧ gA w.author < w.gen) ∧
      (∀ y ∈ lb, gA y.author < y.gen → y ∈ m) ∧
      (m.map Version.author).Nodup := by
  intro lb
  induction lb with
  | nil =>
    intro _ _ _
    exact ⟨[], rfl, (by intro w hw; cases hw), (by intro y hy; cases hy), by simp⟩
  | cons b bs ih =>
    intro _ hv hnd
    rw [List.map_cons, List.nodup_cons] at hnd
    have hvb : b.validate = .ok () := hv b (List.mem_cons_self b bs)
    obtain ⟨m', hm', ho', hK', hnd'⟩ := ih (by intro y hy _ hf; cases hf)
      (fun y hy => hv y (List.mem_cons_of_mem b hy)) hnd.2
    by_cases cond : gA b.author < b.gen
    · refine ⟨b :: m', ?_, ?_, ?_, ?_⟩
      · simp [mergedTail, vvAppend, hvb, cond, hm', Except.bind, Except.map]
      · intro w hw
        rcases List.mem_cons.mp hw with rfl | hw'
        · exact ⟨List.mem_cons_self _ _, cond⟩
        · obtain ⟨hwb, hc⟩ := ho' w hw'
          exact ⟨List.mem_cons_of_mem _ hwb, hc⟩
      · intro y hy hc
        rcases List.mem_cons.mp hy with rfl | hy'
        · exact List.mem_cons_self _ _
        · exact List.mem_cons_of_mem _ (hK' y hy' hc)
      · rw [List.map_cons, List.nodup_cons]
        refine ⟨?_, hnd'⟩
        intro hmem
        obtain ⟨w, hw, hwa⟩ := List.mem_map.mp hmem
        exact hnd.1 (hwa ▸ List.mem_map_of_mem _ (ho' w hw).1)
    · refine ⟨m', ?_, ?_, ?_, hnd'⟩
      · simp [mergedTail, cond, hm', Except.bind, Except.map]
      · intro w hw
        obtain ⟨hwb, hc⟩ := ho' w hw
        exact ⟨List.mem_cons_of_mem _ hwb, hc⟩
      · intro y hy hc
        rcases List.mem_cons.mp hy with rfl | hy'
        · exact absurd hc cond
        · exact hK' y hy' hc

/-- Full characterization of the merge walk: it succeeds on validated
inputs, every output version came from one of the two inputs under the
corresponding keep condition, every input version satisfying its keep
condition is kept, and the output's authors are distinct. -/
lemma mergedAux_spec (gA gB : String → Nat) :
    ∀ (la lb : VV),
    (∀ x ∈ la, gA x.author = x.gen) → (∀ y ∈ lb, gB y.author = y.gen) →
    (∀ x ∈ la, x.validate = .ok ()) → (∀ y ∈ lb, y.validate = .ok ()) →
    (la.map Version.author).Nodup → (lb.map Version.author).Nodup →
    ∃ m, mergedAux gA gB la lb = .ok m ∧
      (∀ w ∈ m, (w ∈ la ∧ gB w.author ≤ w.gen) ∨ (w ∈ lb ∧ gA w.author < w.gen)) ∧
      (∀ x ∈ la, gB x.author ≤ x.gen → x ∈ m) ∧
      (∀ y ∈ lb, gA y.author < y.gen → y ∈ m) ∧
      (m.map Version.author).Nodup := by
  intro la
  induction la with
  | nil =>
    intro lb _ _ _ hvb _ hndb
    obtain ⟨m, hm, ho, hK, hnd⟩ := mergedTail_spec gA lb
      (by intro y _ _ hf; cases hf) hvb hndb
    refine ⟨m, hm, ?_, ?_, hK, hnd⟩
    · intro w hw
      exact Or.inr (ho w hw)
    · intro x hx
      cases hx
  | cons a as ih =>
    intro lb hSa hSb hva hvb hnda hndb
    rw [List.map_cons, List.nodup_cons] at hnda
    have hSa0 : gA a.author = a.gen := hSa a (List.mem_cons_self a as)
    have hva0 : a.validate = .ok () := hva a (List.mem_cons_self a as)
    have hSas : ∀ x ∈ as, gA x.author = x.gen :=
      fun x hx => hSa x (List.mem_cons_of_mem a hx)
    have hvas : ∀ x ∈ as, x.validate = .ok () :=
      fun x hx => hva x (List.mem_cons_of_mem a hx)
    cases lb with
    | nil =>
      obtain ⟨m', hm', ho', hKa', hKb', hndm'⟩ :=
        ih [] hSas (by intro y hy; cases hy) hvas (by intro y hy; cases hy)
          hnda.2 (by simp)
      by_cases condA : gB a.author ≤ a.gen
      · refine ⟨a :: m', ?_, ?_, ?_, ?_, ?_⟩
        · simp [mergedAux, vvAppend, hva0, condA, hm', Except.bind, Except.map]
        · intro w hw
          rcases List.mem_cons.mp hw with rfl | hw'
          · exact Or.inl ⟨List.mem_cons_self _ _, condA⟩
          · rcases ho' w hw' with ⟨hwa, hc⟩ | ⟨hwb, _⟩
            · exact Or.inl ⟨List.mem_cons_of_mem _ hwa, hc⟩
            · cases hwb
        · intro x hx hc
          rcases List.mem_cons.mp hx with rfl | hx'
          · exact List.mem_cons_self _ _
          · exact List.mem_cons_of_mem _ (hKa' x hx' hc)
        · intro y hy
          cases hy
        · rw [List.map_cons, List.nodup_cons]
          refine ⟨?_, hndm'⟩
          intro hmem
          obtain ⟨w, hw, hwa⟩ := List.mem_map.mp hmem
          rcases ho' w hw with ⟨hwas, _⟩ | ⟨hwb, _⟩
          · exact hnda.1 (hwa ▸ List.mem_map_of_mem _ hwas)
          · cases hwb
      · refine ⟨m', ?_, ?_, ?_, ?_, hndm'⟩
        · simp [mergedAux, condA, hm', Except.bind, Except.map]
        · intro w hw
          rcases ho' w hw with ⟨hwa, hc⟩ | ⟨hwb, _⟩
          · exact Or.inl ⟨List.mem_cons_of_mem _ hwa, hc⟩
          · cases hwb
        · intro x hx hc
          rcases List.mem_cons.mp hx with rfl | hx'
          · exact absurd hc condA
          · exact hKa' x hx' hc
        · intro y hy
          cases hy
    | cons b bs =>
      rw [List.map_cons, List.nodup_cons] at hndb
      have hSb0 : gB b.author = b.gen := hSb b (List.mem_cons_self b bs)
      have hvb0 : b.validate = .ok () := hvb b (List.mem_cons_self b bs)
      have hSbs : ∀ y ∈ bs, gB y.author = y.gen :=
        fun y hy => hSb y (List.mem_cons_of_mem b hy)
      have hvbs : ∀ y ∈ bs, y.validate = .ok () :=
        fun y hy => hvb y (List.mem_cons_of_mem b hy)
      obtain ⟨m', hm', ho', hKa', hKb', hndm'⟩ :=
        ih bs hSas hSbs hvas hvbs hnda.2 hndb.2
      -- a kept from the this-side never collides with a version kept from
      -- the other side of the same author, and vice versa
      have hnotA : ∀ w, w ∈ m' → w.author = a.author →
          gB a.author ≤ a.gen → False := by
        intro w hw hwa condA
        rcases ho' w hw with ⟨hwas, _⟩ | ⟨hwbs, hc⟩
        · exact hnda.1 (hwa ▸ List.mem_map_of_mem _ hwas)
        · have hwb : gB w.author = w.gen := hSbs w hwbs
          rw [hwa] at hc hwb
          omega
      have hnotB : ∀ w, w ∈ m' → w.author = b.author →
          gA b.author < b.gen → False := by
        intro w hw hwa condB
        rcases ho' w hw with ⟨hwas, hc⟩ | ⟨hwbs, _⟩
        · have hwa2 : gA w.author = w.gen := hSas w hwas
          rw [hwa] at hc hwa2
          omega
        · exact hndb.1 (hwa ▸ List.mem_map_of_mem _ hwbs)
      by_cases condA : gB a.author ≤ a.gen <;>
        by_cases condB : gA b.author < b.gen
      · -- both heads kept
        have hab : a.author ≠ b.author := by
          intro he
          rw [he] at condA hSa0
          omega
        refine ⟨a :: b :: m', ?_, ?_, ?_, ?_, ?_⟩
        · simp [mergedAux, vvAppend, hva0, hvb0, condA, condB, hm',
            Except.bind, Except.map]
        · intro w hw
          rcases List.mem_cons.mp hw with rfl | hw'
          · exact Or.inl ⟨List.mem_cons_self _ _, condA⟩
          rcases List.mem_cons.mp hw' with rfl | hw''
          · exact Or.inr ⟨List.mem_cons_self _ _, condB⟩
          rcases ho' w hw'' with ⟨hwa, hc⟩ | ⟨hwb, hc⟩
          · exact Or.inl ⟨List.mem_cons_of_mem _ hwa, hc⟩
          · exact Or.inr ⟨List.mem_cons_of_mem _ hwb, hc⟩
        · intro x hx hc
          rcases List.mem_cons.mp hx with rfl | hx'
          · exact List.mem_cons_self _ _
          · exact List.mem_cons_of_mem _
              (List.mem_cons_of_mem _ (hKa' x hx' hc))
        · intro y hy hc
          rcases List.mem_cons.mp hy with rfl | hy'
          · exact List.mem_cons_of_mem _ (List.mem_cons_self _ _)
          · exact List.mem_cons_of_mem _
              (List.mem_cons_of_mem _ (hKb' y hy' hc))
        · rw [List.map_cons, List.map_cons, List.nodup_cons, List.nodup_cons]
          refine ⟨?_, ?_, hndm'⟩
          · intro hmem
            rcases List.mem_cons.mp hmem with he | hmem'
            · exact hab he
            · obtain ⟨w, hw, hwa⟩ := List.mem_map.mp hmem'
              exact hnotA w hw hwa condA
          · intro hmem
            obtain ⟨w, hw, hwa⟩ := List.mem_map.mp hmem
            exact hnotB w hw hwa condB
      · -- only a kept
        refine ⟨a :: m', ?_, ?_, ?_, ?_, ?_⟩
        · simp [mergedAux, vvAppend, hva0, condA, condB, hm',
            Except.bind, Except.map]
        · intro w hw
          rcases List.mem_cons.mp hw with rfl | hw'
          · exact Or.inl ⟨List.mem_cons_self _ _, condA⟩
          rcases ho' w hw' with ⟨hwa, hc⟩ | ⟨hwb, hc⟩
          · exact Or.inl ⟨List.mem_cons_of_mem _ hwa, hc⟩
          · exact Or.inr ⟨List.mem_cons_of_mem _ hwb, hc⟩
        · intro x hx hc
          rcases List.mem_cons.mp hx with rfl | hx'
          · exact List.mem_cons_self _ _
          · exact List.mem_cons_of_mem _ (hKa' x hx' hc)
        · intro y hy hc
          rcases List.mem_cons.mp hy with rfl | hy'
          · exact absurd hc condB
          · exact List.mem_cons_of_mem _ (hKb' y hy' hc)
        · rw [List.map_cons, List.nodup_cons]
          refine ⟨?_, hndm'⟩
          intro hmem
          obtain ⟨w, hw, hwa⟩ := List.mem_map.mp hmem
          exact hnotA w hw hwa condA
      · -- only b kept
        refine ⟨b :: m', ?_, ?_, ?_, ?_, ?_⟩
        · simp [mergedAux, vvAppend, hvb0, condA, condB, hm',
            Except.bind, Except.map]
        · intro w hw
          rcases List.mem_cons.mp hw with rfl | hw'
          · exact Or.inr ⟨List.mem_cons_self _ _, condB⟩
          rcases ho' w hw' with ⟨hwa, hc⟩ | ⟨hwb, hc⟩
          · exact Or.inl ⟨List.mem_cons_of_mem _ hwa, hc⟩
          · exact Or.inr ⟨List.mem_cons_of_mem _ hwb, hc⟩
        · intro x hx hc
          rcases List.mem_cons.mp hx with rfl | hx'
          · exact absurd hc condA
          · exact List.mem_cons_of_mem _ (hKa' x hx' hc)
        · intro y hy hc
          rcases List.mem_cons.mp hy with rfl | hy'
          · exact List.mem_cons_self _ _
          · exact List.mem_cons_of_mem _ (hKb' y hy' hc)
        · rw [List.map_cons, List.nodup_cons]
          refine ⟨?_, hndm'⟩
          intro hmem
          obtain ⟨w, hw, hwa⟩ := List.mem_map.mp hmem
          exact hnotB w hw hwa condB
      · -- neither head kept
        refine ⟨m', ?_, ?_, ?_, ?_, hndm'⟩
        · simp [mergedAux, condA, condB, hm', Except.bind, Except.map]
        · intro w hw
          rcases ho' w hw with ⟨hwa, hc⟩ | ⟨hwb, hc⟩
          · exact Or.inl ⟨List.mem_cons_of_mem _ hwa, hc⟩
          · exact Or.inr ⟨List.mem_cons_of_mem _ hwb, hc⟩
        · intro x hx hc
          rcases List.mem_cons.mp hx with rfl | hx'
          · exact absurd hc condA
          · exact hKa' x hx' hc
        · intro y hy hc
          rcases List.mem_cons.mp hy with rfl | hy'
          · exact absurd hc condB
          · exact hKb' y hy' hc

end CBF

/-- C4: version-vector merge is idempotent and commutative up to
comparison, and dominates its inputs: for vectors whose versions are valid
non-merge-marker entries with distinct authors, `a.mergedWith(a) = a`;
`a.mergedWith(b).compareTo(b.mergedWith(a)) == Same`;
`a.mergedWith(b).compareTo(a)` is `Same` or `Newer`; and the merged vector
carries, for each peer, the larger of the two generations. -/
theorem C4_merge_properties (a b : CBF.VV)
    (hnda : (a.map CBF.Version.author).Nodup)
    (hndb : (b.map CBF.Version.author).Nodup)
    (hva : ∀ x ∈ a, x.validate = .ok ())
    (hvb : ∀ y ∈ b, y.validate = .ok ())
    (hg1a : ∀ x ∈ a, 1 ≤ x.gen)
    (hg1b : ∀ y ∈ b, 1 ≤ y.gen) :
    CBF.mergedWith a a = .ok a ∧
    ∃ m1 m2, CBF.mergedWith a b = .ok m1 ∧ CBF.mergedWith b a = .ok m2 ∧
      CBF.compareTo m1 m2 = CBF.kSame ∧
      (CBF.compareTo m1 a = CBF.kSame ∨ CBF.compareTo m1 a = CBF.kNewer) ∧
      (∀ p, CBF.genOfAuthor m1 p =
        max (CBF.genOfAuthor a p) (CBF.genOfAuthor b p)) := by
  have hSa : ∀ x ∈ a, CBF.versionMapGet a x.author = x.gen :=
    fun x hx => CBF.versionMapGet_of_mem hx hnda
  have hSb : ∀ y ∈ b, CBF.versionMapGet b y.author = y.gen :=
    fun y hy => CBF.versionMapGet_of_mem hy hndb
  refine ⟨CBF.mergedAux_self _ _ a hSa hSa hva, ?_⟩
  obtain ⟨m1, hm1, ho1, hKa1, hKb1, hnd1⟩ :=
    CBF.mergedAux_spec (CBF.versionMapGet a) (CBF.versionMapGet b) a b
      hSa hSb hva hvb hnda hndb
  obtain ⟨m2, hm2, ho2, hKa2, hKb2, hnd2⟩ :=
    CBF.mergedAux_spec (CBF.versionMapGet b) (CBF.versionMapGet a) b a
      hSb hSa hvb hva hndb hnda
  have hmax1 : ∀ w ∈ m1, w.gen =
      max (CBF.versionMapGet a w.author) (CBF.versionMapGet b w.author) := by
    intro w hw
    rcases ho1 w hw with ⟨hwa, hc⟩ | ⟨hwb, hc⟩
    · rw [hSa w hwa]
      exact (Nat.max_eq_left hc).symm
    · rw [hSb w hwb]
      exact (Nat.max_eq_right (le_of_lt hc)).symm
  have hmax2 : ∀ w ∈ m2, w.gen =
      max (CBF.versionMapGet a w.author) (CBF.versionMapGet b w.author) := by
    intro w hw
    rcases ho2 w hw with ⟨hwb, hc⟩ | ⟨hwa, hc⟩
    · rw [hSb w hwb]
      exact (Nat.max_eq_right hc).symm
    · rw [hSa w hwa]
      exact (Nat.max_eq_left (le_of_lt hc)).symm
  have hcov1 : ∀ p, (p ∈ a.map CBF.Version.author ∨
      p ∈ b.map CBF.Version.author) → ∃ u ∈ m1, u.author = p := by
    intro p hp
    rcases hp with hpa | hpb
    · obtain ⟨x, hx, rfl⟩ := List.mem_map.mp hpa
      have hxg : CBF.versionMapGet a x.author = x.gen := hSa x hx
      by_cases hc : CBF.versionMapGet b x.author ≤ x.gen
      · exact ⟨x, hKa1 x hx hc, rfl⟩
      · push_neg at hc
        have hgB : CBF.versionMapGet b x.author ≠ 0 := by
          have := hg1a x hx
          omega
        obtain ⟨u, hu, hua, hug⟩ := CBF.exists_of_versionMapGet_pos hndb hgB
        have hlt : CBF.versionMapGet a u.author < u.gen := by
          rw [hua, hug]
          omega
        exact ⟨u, hKb1 u hu hlt, hua⟩
    · obtain ⟨y, hy, rfl⟩ := List.mem_map.mp hpb
      have hyg : CBF.versionMapGet b y.author = y.gen := hSb y hy
      by_cases hc : CBF.versionMapGet a y.author < y.gen
      · exact ⟨y, hKb1 y hy hc, rfl⟩
      · push_neg at hc
        have hgA : CBF.versionMapGet a y.author ≠ 0 := by
          have := hg1b y hy
          omega
        obtain ⟨u, hu, hua, hug⟩ := CBF.exists_of_versionMapGet_pos hnda hgA
        have hle : CBF.versionMapGet b u.author ≤ u.gen := by
          rw [hua, hug]
          omega
        exact ⟨u, hKa1 u hu hle, hua⟩
  have hcov2 : ∀ p, (p ∈ a.map CBF.Version.author ∨
      p ∈ b.map CBF.Version.author) → ∃ u ∈ m2, u.author = p := by
    intro p hp
    rcases hp with hpa | hpb
    · obtain ⟨x, hx, rfl⟩ := List.mem_map.mp hpa
      have hxg : CBF.versionMapGet a x.author = x.gen := hSa x hx
      by_cases hc : CBF.versionMapGet b x.author < x.gen
      · exact ⟨x, hKb2 x hx hc, rfl⟩
      · push_neg at hc
        have hgB : CBF.versionMapGet b x.author ≠ 0 := by
          have := hg1a x hx
          omega
        obtain ⟨u, hu, hua, hug⟩ := CBF.exists_of_versionMapGet_pos hndb hgB
        have hle : CBF.versionMapGet a u.author ≤ u.gen := by
          rw [hua, hug]
          omega
        exact ⟨u, hKa2 u hu hle, hua⟩
    · obtain ⟨y, hy, rfl⟩ := List.mem_map.mp hpb
      have hyg : CBF.versionMapGet b y.author = y.gen := hSb y hy
      by_cases hc : CBF.versionMapGet a y.author ≤ y.gen
      · exact ⟨y, hKa2 y hy hc, rfl⟩
      · push_neg at hc
        have hgA : CBF.versionMapGet a y.author ≠ 0 := by
          have := hg1b y hy
          omega
        obtain ⟨u, hu, hua, hug⟩ := CBF.exists_of_versionMapGet_pos hnda hgA
        have hlt : CBF.versionMapGet b u.author < u.gen := by
          rw [hua, hug]
          omega
        exact ⟨u, hKb2 u hu hlt, hua⟩
  have hun1 : ∀ w ∈ m1, w.author ∈ a.map CBF.Version.author ∨
      w.author ∈ b.map CBF.Version.author := by
    intro w hw
    rcases ho1 w hw with ⟨h, _⟩ | ⟨h, _⟩
    · exact Or.inl (List.mem_map_of_mem _ h)
    · exact Or.inr (List.mem_map_of_mem _ h)
  have hun2 : ∀ w ∈ m2, w.author ∈ a.map CBF.Version.author ∨
      w.author ∈ b.map CBF.Version.author := by
    intro w hw
    rcases ho2 w hw with ⟨h, _⟩ | ⟨h, _⟩
    · exact Or.inr (List.mem_map_of_mem _ h)
    · exact Or.inl (List.mem_map_of_mem _ h)
  have hlen_le : ∀ (l1 l2 : List String), l1.Nodup → l1 ⊆ l2 →
      l1.length ≤ l2.length :=
    fun _ _ hnd hsub => (List.Nodup.subperm hnd hsub).length_le
  have hsub12 : m1.map CBF.Version.author ⊆ m2.map CBF.Version.author := by
    intro p hp
    obtain ⟨w, hw, rfl⟩ := List.mem_map.mp hp
    obtain ⟨u, hu, hua⟩ := hcov2 w.author (hun1 w hw)
    exact hua ▸ List.mem_map_of_mem _ hu
  have hsub21 : m2.map CBF.Version.author ⊆ m1.map CBF.Version.author := by
    intro p hp
    obtain ⟨w, hw, rfl⟩ := List.mem_map.mp hp
    obtain ⟨u, hu, hua⟩ := hcov1 w.author (hun2 w hw)
    exact hua ▸ List.mem_map_of_mem _ hu
  have hlen12 : m1.length = m2.length := by
    have h1 := hlen_le _ _ hnd1 hsub12
    have h2 := hlen_le _ _ hnd2 hsub21
    simp only [List.length_map] at h1 h2
    omega
  have hg12 : ∀ w ∈ m1, CBF.genOfAuthor m2 w.author = w.gen := by
    intro w hw
    obtain ⟨u, hu, hua⟩ := hcov2 w.author (hun1 w hw)
    have h1 := CBF.genOfAuthor_of_mem hu hnd2
    rw [hua] at h1
    have h2 := hmax2 u hu
    rw [hua] at h2
    rw [h1, h2, ← hmax1 w hw]
  have hcmp12 : CBF.compareTo m1 m2 = CBF.kSame := by
    unfold CBF.compareTo
    rw [hlen12]
    simp only [lt_self_iff_false, if_false]
    cases m1 with
    | nil => rfl
    | cons w rest =>
      have hw : CBF.genOfAuthor m2 w.author = w.gen :=
        hg12 w (List.mem_cons_self w rest)
      simp [CBF.compareLoop, hw]
  have hsubA : a.map CBF.Version.author ⊆ m1.map CBF.Version.author := by
    intro p hp
    obtain ⟨u, hu, hua⟩ := hcov1 p (Or.inl hp)
    exact hua ▸ List.mem_map_of_mem _ hu
  have hlenA : a.length ≤ m1.length := by
    have := hlen_le _ _ hnda hsubA
    simpa using this
  have hall : ∀ w ∈ m1, CBF.genOfAuthor a w.author ≤ w.gen := by
    intro w hw
    rw [CBF.genOfAuthor_eq_versionMapGet a w.author hnda, hmax1 w hw]
    exact le_max_left _ _
  have hdom : CBF.compareTo m1 a = CBF.kSame ∨
      CBF.compareTo m1 a = CBF.kNewer := by
    unfold CBF.compareTo
    rw [if_neg (not_lt.mpr hlenA)]
    by_cases h2 : a.length < m1.length
    · rw [if_pos h2]
      exact CBF.compareLoop_no_older a m1 CBF.kNewer (Or.inr rfl) hall
    · rw [if_neg h2]
      exact CBF.compareLoop_no_older a m1 CBF.kSame (Or.inl rfl) hall
  have hmaxp : ∀ p, CBF.genOfAuthor m1 p =
      max (CBF.genOfAuthor a p) (CBF.genOfAuthor b p) := by
    intro p
    rw [CBF.genOfAuthor_eq_versionMapGet a p hnda,
      CBF.genOfAuthor_eq_versionMapGet b p hndb]
    by_cases hp : p ∈ a.map CBF.Version.author ∨ p ∈ b.map CBF.Version.author
    · obtain ⟨u, hu, hua⟩ := hcov1 p hp
      have h1 := CBF.genOfAuthor_of_mem hu hnd1
      rw [hua] at h1
      have h2 := hmax1 u hu
      rw [hua] at h2
      rw [h1, h2]
    · push_neg at hp
      have h0 : CBF.genOfAuthor m1 p = 0 := by
        apply CBF.genOfAuthor_of_not_mem
        intro hq
        obtain ⟨w, hw, hwa⟩ := List.mem_map.mp hq
        rcases hun1 w hw with h | h
        · exact absurd (hwa ▸ h) hp.1
        · exact absurd (hwa ▸ h) hp.2
      rw [h0, CBF.versionMapGet_of_not_mem hp.1,
        CBF.versionMapGet_of_not_mem hp.2]
      simp
  exact ⟨m1, m2, hm1, hm2, hcmp12, hdom, hmaxp⟩

/-- Witness for C4 at `a = 2@X,1@Y`, `b = 1@X,3@Y` (scenario S5). -/
theorem C4_merge_witness :
    (([⟨2, "X"⟩, ⟨1, "Y"⟩] : CBF.VV).map CBF.Version.author).Nodup ∧
    (([⟨1, "X"⟩, ⟨3, "Y"⟩] : CBF.VV).map CBF.Version.author).Nodup ∧
    (∀ x ∈ ([⟨2, "X"⟩, ⟨1, "Y"⟩] : CBF.VV), x.validate = .ok ()) ∧
    (∀ y ∈ ([⟨1, "X"⟩, ⟨3, "Y"⟩] : CBF.VV), y.validate = .ok ()) ∧
    (∀ x ∈ ([⟨2, "X"⟩, ⟨1, "Y"⟩] : CBF.VV), 1 ≤ x.gen) ∧
    (∀ y ∈ ([⟨1, "X"⟩, ⟨3, "Y"⟩] : CBF.VV), 1 ≤ y.gen) ∧
    (CBF.mergedWith [⟨2, "X"⟩, ⟨1, "Y"⟩] [⟨2, "X"⟩, ⟨1, "Y"⟩] =
      .ok [⟨2, "X"⟩, ⟨1, "Y"⟩] ∧
    ∃ m1 m2, CBF.mergedWith [⟨2, "X"⟩, ⟨1, "Y"⟩] [⟨1, "X"⟩, ⟨3, "Y"⟩] = .ok m1 ∧
      CBF.mergedWith [⟨1, "X"⟩, ⟨3, "Y"⟩] [⟨2, "X"⟩, ⟨1, "Y"⟩] = .ok m2 ∧
      CBF.compareTo m1 m2 = CBF.kSame ∧
      (CBF.compareTo m1 [⟨2, "X"⟩, ⟨1, "Y"⟩] = CBF.kSame ∨
        CBF.compareTo m1 [⟨2, "X"⟩, ⟨1, "Y"⟩] = CBF.kNewer) ∧
      (∀ p, CBF.genOfAuthor m1 p =
        max (CBF.genOfAuthor [⟨2, "X"⟩, ⟨1, "Y"⟩] p)
            (CBF.genOfAuthor [⟨1, "X"⟩, ⟨3, "Y"⟩] p))) :=
  ⟨by decide, by decide, by decide, by decide, by decide, by decide,
    C4_merge_properties [⟨2, "X"⟩, ⟨1, "Y"⟩] [⟨1, "X"⟩, ⟨3, "Y"⟩]
      (by decide) (by decide) (by decide) (by decide) (by decide) (by decide)⟩

namespace RT

lemma length_updateRev (revs : List Rev) (rid : RevId) (f : Rev → Rev) :
    (updateRev revs rid f).length = revs.length := by
  unfold updateRev
  rw [List.length_map]

lemma length_clearKeepBodyAnc (mf : Nat) (c : Bool) :
    ∀ (fuel : Nat) (revs : List Rev) (cur : Option RevId),
    (clearKeepBodyAnc mf c fuel revs cur).length = revs.length := by
  intro fuel
  induction fuel with
  | zero => intro revs cur; rfl
  | succ n ih =>
    intro revs cur
    cases cur with
    | none => rfl
    | some pid =>
      rcases h : revs.find? (fun r => r.revID == pid) with _ | anc
      · simp [clearKeepBodyAnc, h]
      · by_cases hc : c && !anc.isConflict
        · simp [clearKeepBodyAnc, h, hc]
        · simp [clearKeepBodyAnc, h, hc, ih, length_updateRev]

lemma length_removeBodiesFrom :
    ∀ (fuel : Nat) (revs : List Rev) (cur : Option RevId),
    (removeBodiesFrom fuel revs cur).length = revs.length := by
  intro fuel
  induction fuel with
  | zero => intro revs cur; rfl
  | succ n ih =>
    intro revs cur
    cases cur with
    | none => rfl
    | some pid =>
      rcases h : revs.find? (fun r => r.revID == pid) with _ | r
      · simp [removeBodiesFrom, h]
      · simp [removeBodiesFrom, h, ih, length_updateRev]

lemma insertLow_revs_length (t : RevTree) (revID : RevId)
    (body : Option (List Nat)) (parent : Option Rev) (flags : RevFlags)
    (mc : Bool) :
    ((t.insertLow revID body parent flags mc).1).revs.length
      = t.revs.length + 1 := by
  unfold RevTree.insertLow
  cases parent with
  | none => simp
  | some p =>
    simp only []
    split_ifs <;>
      simp [length_clearKeepBodyAnc, length_removeBodiesFrom, length_updateRev]

end RT

/-- C2: `RevTree::insert` over a valid revID (generation at least 1)
follows the claimed cascade: an already-present revID returns
`(null, 200)` and changes nothing; with `allowConflict` false, a non-leaf
parent (or no parent on a non-empty tree) returns `(null, 409)`; a
generation that is not `parentGen+1` (1 for no parent) returns
`(null, 400)`; otherwise a new Rev is inserted and the status is 200 for
a deletion, else 201. -/
theorem C2_insert_cascade (t : RT.RevTree) (revID : RT.RevId)
    (body : Option (List Nat)) (flags : RT.RevFlags)
    (parent : Option RT.Rev) (allowConflict markConflict : Bool)
    (hgen : 1 ≤ revID.gen) :
    ((t.get revID).isSome = true →
      t.insert revID body flags parent allowConflict markConflict
        = (none, 200, t)) ∧
    ((t.get revID).isSome = false → allowConflict = false →
      (∀ p, parent = some p → p.leaf = false →
        t.insert revID body flags parent allowConflict markConflict
          = (none, 409, t)) ∧
      (parent = none → t.revs ≠ [] →
        t.insert revID body flags parent allowConflict markConflict
          = (none, 409, t))) ∧
    ((t.get revID).isSome = false →
      (∀ p, parent = some p → (allowConflict = true ∨ p.leaf = true) →
        revID.gen ≠ p.revID.gen + 1 →
        t.insert revID body flags parent allowConflict markConflict
          = (none, 400, t)) ∧
      (parent = none → (allowConflict = true ∨ t.revs = []) →
        revID.gen ≠ 1 →
        t.insert revID body flags parent allowConflict markConflict
          = (none, 400, t))) ∧
    ((t.get revID).isSome = false →
      (∀ p, parent = some p → (allowConflict = true ∨ p.leaf = true) →
        revID.gen = p.revID.gen + 1 →
        ((t.insert revID body flags parent allowConflict markConflict).1.isSome
            = true ∧
         (t.insert revID body flags parent allowConflict markConflict).2.1
            = (if flags.deleted then 200 else 201) ∧
         (t.insert revID body flags parent allowConflict
            markConflict).2.2.revs.length = t.revs.length + 1)) ∧
      (parent = none → (allowConflict = true ∨ t.revs = []) →
        revID.gen = 1 →
        ((t.insert revID body flags parent allowConflict markConflict).1.isSome
            = true ∧
         (t.insert revID body flags parent allowConflict markConflict).2.1
            = (if flags.deleted then 200 else 201) ∧
         (t.insert revID body flags parent allowConflict
            markConflict).2.2.revs.length = t.revs.length + 1))) := by
  have hg0 : ¬ revID.gen = 0 := by omega
  refine ⟨?_, ?_, ?_, ?_⟩
  · intro hsome
    unfold RT.RevTree.insert
    rw [if_neg hg0, if_pos hsome]
  · intro hnone hac
    constructor
    · intro p hp hpl
      subst hp
      unfold RT.RevTree.insert
      rw [if_neg hg0, if_neg (by simp [hnone])]
      simp [hac, hpl]
    · intro hp hne
      subst hp
      have hlp : t.revs.length > 0 := List.length_pos.mpr hne
      unfold RT.RevTree.insert
      rw [if_neg hg0, if_neg (by simp [hnone])]
      simp [hac, hlp]
  · intro hnone
    constructor
    · intro p hp hok hne
      subst hp
      unfold RT.RevTree.insert
      rw [if_neg hg0, if_neg (by simp [hnone])]
      rcases hok with hok | hok <;> simp [hok, hne]
    · intro hp hok hne
      subst hp
      unfold RT.RevTree.insert
      rw [if_neg hg0, if_neg (by simp [hnone])]
      rcases hok with hok | hok <;> simp [hok, hne]
  · intro hnone
    constructor
    · intro p hp hok hge
      subst hp
      unfold RT.RevTree.insert
      rw [if_neg hg0, if_neg (by simp [hnone])]
      rcases hok with hok | hok <;>
        simp [hok, hge, RT.insertLow_revs_length]
    · intro hp hok hge
      subst hp
      unfold RT.RevTree.insert
      rw [if_neg hg0, if_neg (by simp [hnone])]
      rcases hok with hok | hok <;>
        simp [hok, hge, RT.insertLow_revs_length]

/-- Witness for C2 on the empty tree: inserting generation 1 with no
parent succeeds with status 201. -/
theorem C2_insert_witness :
    1 ≤ (⟨1, "aa"⟩ : RT.RevId).gen ∧
    ((({ revs := [], remoteRevs := [], sorted := true, changed := false }
        : RT.RevTree).insert ⟨1, "aa"⟩ (some []) ⟨false, false, false, false⟩
        none false false).2.1 = 201) := by
  constructor
  · decide
  · have h := (C2_insert_cascade
      { revs := [], remoteRevs := [], sorted := true, changed := false }
      ⟨1, "aa"⟩ (some []) ⟨false, false, false, false⟩ none false false
      (by decide)).2.2.2
    have h2 := (h (by decide)).2 rfl (Or.inr rfl) (by decide)
    simpa using h2.2.1

/-- C10: when no Rev with the given revID exists, or the named Rev is not
a leaf, `RevTree::purge` returns 0 and leaves the tree completely
unchanged (no Revs removed, no flags modified, remoteRevs untouched). -/
theorem C10_purge_noop (t : RT.RevTree) (rid : RT.RevId)
    (h : t.revs.find? (fun r => r.revID == rid) = none ∨
      ∃ r, t.revs.find? (fun r2 => r2.revID == rid) = some r ∧
        r.leaf = false) :
    t.purge rid = (0, t) := by
  rcases h with h | ⟨r, hr, hl⟩
  · simp [RT.RevTree.purge, h]
  · simp [RT.RevTree.purge, hr, hl]

/-- Witness for C10 on the two-branch tree: purging the non-leaf root and
purging an absent revID both return 0 and leave the tree unchanged. -/
theorem C10_purge_noop_witness :
    ((RT.twoBranchTree.revs.find? (fun r => r.revID == ⟨9, "zz"⟩) = none ∨
      ∃ r, RT.twoBranchTree.revs.find? (fun r2 => r2.revID == ⟨9, "zz"⟩)
          = some r ∧ r.leaf = false) ∧
      RT.twoBranchTree.purge ⟨9, "zz"⟩ = (0, RT.twoBranchTree)) ∧
    ((RT.twoBranchTree.revs.find? (fun r => r.revID == ⟨1, "aa"⟩) = none ∨
      ∃ r, RT.twoBranchTree.revs.find? (fun r2 => r2.revID == ⟨1, "aa"⟩)
          = some r ∧ r.leaf = false) ∧
      RT.twoBranchTree.purge ⟨1, "aa"⟩ = (0, RT.twoBranchTree)) :=
  ⟨⟨by decide, C10_purge_noop RT.twoBranchTree ⟨9, "zz"⟩ (by decide)⟩,
   ⟨by decide, C10_purge_noop RT.twoBranchTree ⟨1, "aa"⟩ (by decide)⟩⟩

/-- C8: the claim's "returned count equals the number of Revs removed"
fails: on a root with two leaf children and `maxDepth = 1`, the root is
reached from both leaves and counted twice, so `prune` returns 2 while
exactly one Rev was removed. -/
theorem C8_prune_count_counterexample :
    1 ≤ 1 ∧
    (RT.twoBranchTree.prune 1).1 = 2 ∧
    RT.twoBranchTree.revs.length - (RT.twoBranchTree.prune 1).2.revs.length
      = 1 := by
  decide

namespace RT

lemma purgeOnlyFn_id : PurgeOnlyFn (fun r => r) :=
  fun _ => ⟨rfl, rfl, rfl, rfl⟩

lemma purgeOnlyFn_comp {g h : Rev → Rev} (hg : PurgeOnlyFn g)
    (hh : PurgeOnlyFn h) : PurgeOnlyFn (fun r => h (g r)) := by
  intro r
  obtain ⟨h1, h2, h3, h4⟩ := hh (g r)
  obtain ⟨g1, g2, g3, g4⟩ := hg r
  exact ⟨h1.trans g1, h2.trans g2, h3.trans g3, h4.trans g4⟩

lemma map_map_comp (revs : List Rev) (g h : Rev → Rev) :
    (revs.map g).map h = revs.map (fun r => h (g r)) := by
  rw [List.map_map]
  rfl

lemma updateRev_eq_map (revs : List Rev) (rid : RevId) (f : Rev → Rev) :
    updateRev revs rid f
      = revs.map (fun r => if r.revID = rid then f r else r) := rfl

lemma purgeOnlyFn_update (rid : RevId) (f : Rev → Rev)
    (hf : ∀ r, (f r).revID = r.revID ∧ (f r).parent = r.parent ∧
      (f r).leaf = r.leaf ∧ (f r).keepBody = r.keepBody) :
    PurgeOnlyFn (fun r => if r.revID = rid then f r else r) := by
  intro r
  by_cases h : r.revID = rid
  · simpa [h] using hf r
  · simp [h]

lemma map_revID_of_purgeOnly {revs : List Rev} {g : Rev → Rev}
    (hg : PurgeOnlyFn g) : (revs.map g).map Rev.revID = revs.map Rev.revID := by
  rw [List.map_map]
  apply List.map_congr_left
  intro r _
  exact (hg r).1

lemma nodup_ids_of_purgeOnly {revs : List Rev} {g : Rev → Rev}
    (hg : PurgeOnlyFn g) (hnd : (revs.map Rev.revID).Nodup) :
    ((revs.map g).map Rev.revID).Nodup := by
  rw [map_revID_of_purgeOnly hg]
  exact hnd

lemma hasChild_map_iff {revs : List Rev} {g : Rev → Rev}
    (hg : PurgeOnlyFn g) (rid : RevId) :
    HasChild (revs.map g) rid ↔ HasChild revs rid := by
  constructor
  · rintro ⟨x, hx, hp⟩
    obtain ⟨y, hy, rfl⟩ := List.mem_map.mp hx
    exact ⟨y, hy, ((hg y).2.1).symm.trans hp⟩
  · rintro ⟨x, hx, hp⟩
    exact ⟨g x, List.mem_map_of_mem g hx, (hg x).2.1.trans hp⟩

lemma leavesChildless_map {revs : List Rev} {g : Rev → Rev}
    (hg : PurgeOnlyFn g) (h : LeavesChildless revs) :
    LeavesChildless (revs.map g) := by
  intro r hr hl
  obtain ⟨y, hy, rfl⟩ := List.mem_map.mp hr
  rw [(hg y).1, hasChild_map_iff hg]
  exact h y hy (((hg y).2.2.1).symm.trans hl)

lemma mem_eq_of_nodup_ids {revs : List Rev} {x y : Rev}
    (hnd : (revs.map Rev.revID).Nodup) (hx : x ∈ revs) (hy : y ∈ revs)
    (he : x.revID = y.revID) : x = y :=
  List.inj_on_of_nodup_map hnd hx hy he

lemma find?_revID_eq {revs : List Rev} {rid : RevId} {r : Rev}
    (h : revs.find? (fun x => x.revID == rid) = some r) :
    r ∈ revs ∧ r.revID = rid := by
  refine ⟨List.mem_of_find?_eq_some h, ?_⟩
  have := List.find?_some h
  simpa using this

lemma updateRev_of_not_mem {revs : List Rev} {rid : RevId} (f : Rev → Rev)
    (h : ∀ x ∈ revs, x.revID ≠ rid) : updateRev revs rid f = revs := by
  rw [updateRev_eq_map]
  conv_rhs => rw [← List.map_id revs]
  apply List.map_congr_left
  intro x hx
  simp [h x hx]

lemma flaggedCount_cons (r : Rev) (rest : List Rev) :
    flaggedCount (r :: rest)
      = (if r.purge then 1 else 0) + flaggedCount rest := by
  unfold flaggedCount
  by_cases h : r.purge <;> simp [List.filter_cons, h, Nat.add_comm]

lemma updateRev_cons (w : Rev) (rest : List Rev) (rid : RevId)
    (f : Rev → Rev) :
    updateRev (w :: rest) rid f
      = (if w.revID = rid then f w else w) :: updateRev rest rid f := rfl

lemma flaggedCount_setPurge_le {revs : List Rev} (rid : RevId)
    (hnd : (revs.map Rev.revID).Nodup) :
    flaggedCount (updateRev revs rid (fun x => { x with purge := true }))
      ≤ flaggedCount revs + 1 := by
  induction revs with
  | nil => simp [updateRev, flaggedCount]
  | cons w rest ih =>
    rw [List.map_cons, List.nodup_cons] at hnd
    rw [updateRev_cons]
    by_cases h : w.revID = rid
    · have hrest : updateRev rest rid (fun x => { x with purge := true })
          = rest := by
        apply updateRev_of_not_mem
        intro x hx he
        apply hnd.1
        rw [h, ← he]
        exact List.mem_map_of_mem _ hx
      rw [if_pos h, hrest, flaggedCount_cons, flaggedCount_cons]
      by_cases hp : w.purge <;> simp <;> omega
    · rw [if_neg h, flaggedCount_cons, flaggedCount_cons]
      have := ih hnd.2
      omega

lemma flaggedCount_clearPurge {revs : List Rev} {rid : RevId} {r : Rev}
    (hnd : (revs.map Rev.revID).Nodup) (hr : r ∈ revs) (hrid : r.revID = rid)
    (hp : r.purge = true) :
    flaggedCount (updateRev revs rid (fun x => { x with purge := false })) + 1
      = flaggedCount revs := by
  induction revs with
  | nil => cases hr
  | cons w rest ih =>
    rw [List.map_cons, List.nodup_cons] at hnd
    rw [updateRev_cons]
    rcases List.mem_cons.mp hr with rfl | hrt
    · have hrest : updateRev rest rid (fun x => { x with purge := false })
          = rest := by
        apply updateRev_of_not_mem
        intro x hx he
        apply hnd.1
        rw [hrid, ← he]
        exact List.mem_map_of_mem _ hx
      rw [if_pos hrid, hrest, flaggedCount_cons, flaggedCount_cons]
      simp [hp]
      omega
    · have hw : w.revID ≠ rid := by
        intro he
        apply hnd.1
        rw [he, ← hrid]
        exact List.mem_map_of_mem _ hrt
      rw [if_neg hw, flaggedCount_cons, flaggedCount_cons]
      have := ih hnd.2 hrt
      omega

lemma purgeDecFn_id : PurgeDecFn (fun r => r) := fun _ h => h

lemma purgeDecFn_comp {g h : Rev → Rev} (hg : PurgeDecFn g)
    (hh : PurgeDecFn h) : PurgeDecFn (fun r => h (g r)) :=
  fun r hr => hg r (hh (g r) hr)

lemma purgeDecFn_clear (rid : RevId) :
    PurgeDecFn (fun x => if x.revID = rid then { x with purge := false }
      else x) := by
  intro r h
  by_cases hx : r.revID = rid
  · simp [hx] at h
  · simpa [hx] using h

lemma noLeafPurged_map_dec {revs : List Rev} {g : Rev → Rev}
    (hg : PurgeOnlyFn g) (hdec : PurgeDecFn g) (h : NoLeafPurged revs) :
    NoLeafPurged (revs.map g) := by
  intro r hr hp
  obtain ⟨y, hy, rfl⟩ := List.mem_map.mp hr
  obtain ⟨h1, h2⟩ := h y hy (hdec y hp)
  exact ⟨(hg y).2.2.1.trans h1, (hg y).2.2.2.trans h2⟩

/-- Invariants of the leaf-ancestry marking walk of `prune`: it only sets
purge flags (on Revs that are neither leaves nor `kKeepBody` holders), and
it increments the counter at least once per newly flagged Rev. -/
lemma markAnc_spec (maxDepth : Nat) (hmd : 1 ≤ maxDepth) :
    ∀ (fuel : Nat) (revs : List Rev) (cur : Option RevId) (depth cnt : Nat),
    (revs.map Rev.revID).Nodup →
    NoLeafPurged revs →
    LeavesChildless revs →
    (∀ cid, cur = some cid → HasChild revs cid ∨ depth = 0) →
    (∃ g, PurgeOnlyFn g ∧
      (markAnc maxDepth fuel revs cur depth cnt).1 = revs.map g) ∧
    NoLeafPurged (markAnc maxDepth fuel revs cur depth cnt).1 ∧
    flaggedCount (markAnc maxDepth fuel revs cur depth cnt).1 + cnt ≤
      flaggedCount revs + (markAnc maxDepth fuel revs cur depth cnt).2 := by
  intro fuel
  induction fuel with
  | zero =>
    intro revs cur depth cnt hnd hnlp hlc hcur
    exact ⟨⟨fun r => r, purgeOnlyFn_id, by simp [markAnc]⟩, hnlp,
      by simp [markAnc]⟩
  | succ fuel ih =>
    intro revs cur depth cnt hnd hnlp hlc hcur
    cases cur with
    | none =>
      exact ⟨⟨fun r => r, purgeOnlyFn_id, by simp [markAnc]⟩, hnlp,
        by simp [markAnc]⟩
    | some cid =>
      rcases hf : revs.find? (fun x => x.revID == cid) with _ | r
      · have he : markAnc maxDepth (fuel + 1) revs (some cid) depth cnt
            = (revs, cnt) := by
          simp [markAnc, hf]
        rw [he]
        exact ⟨⟨fun r => r, purgeOnlyFn_id, by simp⟩, hnlp, by simp⟩
      · obtain ⟨hrmem, hrid⟩ := find?_revID_eq hf
        by_cases hcond : depth + 1 > maxDepth ∧ r.keepBody = false
        · have hchild : HasChild revs cid := by
            rcases hcur cid rfl with h | h
            · exact h
            · omega
          have hrleaf : r.leaf = false := by
            cases hb : r.leaf
            · rfl
            · exact absurd
                (show HasChild revs r.revID by rw [hrid]; exact hchild)
                (hlc r hrmem hb)
          have he : markAnc maxDepth (fuel + 1) revs (some cid) depth cnt
              = markAnc maxDepth fuel
                  (updateRev revs cid (fun x => { x with purge := true }))
                  r.parent (depth + 1) (cnt + 1) := by
            simp [markAnc, hf, hcond.1, hcond.2]
          have hupd : PurgeOnlyFn
              (fun x => if x.revID = cid then { x with purge := true }
                else x) :=
            purgeOnlyFn_update _ _ (fun _ => ⟨rfl, rfl, rfl, rfl⟩)
          have hnd2 : (((updateRev revs cid
              (fun x => { x with purge := true })).map Rev.revID)).Nodup := by
            rw [updateRev_eq_map]
            exact nodup_ids_of_purgeOnly hupd hnd
          have hnlp2 : NoLeafPurged (updateRev revs cid
              (fun x => { x with purge := true })) := by
            intro x2 hx2 hp2
            rw [updateRev_eq_map] at hx2
            obtain ⟨x, hx, rfl⟩ := List.mem_map.mp hx2
            by_cases hxe : x.revID = cid
            · have hxr : x = r :=
                mem_eq_of_nodup_ids hnd hx hrmem (hxe.trans hrid.symm)
              subst hxr
              simp [hxe, hrleaf, hcond.2]
            · simp only [hxe, if_false] at hp2 ⊢
              exact hnlp x hx hp2
          have hlc2 : LeavesChildless (updateRev revs cid
              (fun x => { x with purge := true })) := by
            rw [updateRev_eq_map]
            exact leavesChildless_map hupd hlc
          have hcur2 : ∀ cid2, r.parent = some cid2 →
              HasChild (updateRev revs cid
                (fun x => { x with purge := true })) cid2 ∨ depth + 1 = 0 := by
            intro cid2 hp2
            left
            rw [updateRev_eq_map]
            rw [hasChild_map_iff hupd]
            exact ⟨r, hrmem, hp2⟩
          obtain ⟨⟨g1, hg1, hrevs1⟩, hnlp1, hcnt1⟩ :=
            ih (updateRev revs cid (fun x => { x with purge := true }))
              r.parent (depth + 1) (cnt + 1) hnd2 hnlp2 hlc2 hcur2
          rw [he]
          refine ⟨⟨fun x => g1 (if x.revID = cid then { x with purge := true }
              else x), purgeOnlyFn_comp hupd hg1, ?_⟩, hnlp1, ?_⟩
          · rw [hrevs1, updateRev_eq_map, map_map_comp]
          · have hsp := flaggedCount_setPurge_le cid hnd
            omega
        · have hbool : (decide (depth + 1 > maxDepth) && !r.keepBody)
              = false := by
            cases h2 : r.keepBody
            · have h1 : ¬ depth + 1 > maxDepth := fun h1 => hcond ⟨h1, h2⟩
              simp [h1]
            · simp
          have he : markAnc maxDepth (fuel + 1) revs (some cid) depth cnt
              = markAnc maxDepth fuel revs r.parent (depth + 1) cnt := by
            simp [markAnc, hf, hbool]
          have hcur2 : ∀ cid2, r.parent = some cid2 →
              HasChild revs cid2 ∨ depth + 1 = 0 := by
            intro cid2 hp2
            exact Or.inl ⟨r, hrmem, hp2⟩
          obtain ⟨hmap1, hnlp1, hcnt1⟩ :=
            ih revs r.parent (depth + 1) cnt hnd hnlp hlc hcur2
          rw [he]
          exact ⟨hmap1, hnlp1, by omega⟩

/-- Invariants of the whole marking phase of `prune`. -/
lemma pruneMarkLoop_spec (maxDepth : Nat) (hmd : 1 ≤ maxDepth)
    (sorted : Bool) :
    ∀ (ids : List RevId) (revs : List Rev) (cnt : Nat),
    (revs.map Rev.revID).Nodup →
    NoLeafPurged revs →
    LeavesChildless revs →
    (∃ g, PurgeOnlyFn g ∧
      (pruneMarkLoop maxDepth sorted ids revs cnt).1 = revs.map g) ∧
    NoLeafPurged (pruneMarkLoop maxDepth sorted ids revs cnt).1 ∧
    flaggedCount (pruneMarkLoop maxDepth sorted ids revs cnt).1 + cnt ≤
      flaggedCount revs + (pruneMarkLoop maxDepth sorted ids revs cnt).2 := by
  intro ids
  induction ids with
  | nil =>
    intro revs cnt hnd hnlp hlc
    exact ⟨⟨fun r => r, purgeOnlyFn_id, by simp [pruneMarkLoop]⟩, hnlp,
      by simp [pruneMarkLoop]⟩
  | cons cid rest ih =>
    intro revs cnt hnd hnlp hlc
    rcases hf : revs.find? (fun r => r.revID == cid) with _ | r
    · have he : pruneMarkLoop maxDepth sorted (cid :: rest) revs cnt
          = pruneMarkLoop maxDepth sorted rest revs cnt := by
        simp [pruneMarkLoop, hf]
      rw [he]
      exact ih revs cnt hnd hnlp hlc
    · by_cases hl : r.leaf
      · have he : pruneMarkLoop maxDepth sorted (cid :: rest) revs cnt
            = pruneMarkLoop maxDepth sorted rest
                (markAnc maxDepth (revs.length + 1) revs (some cid) 0 cnt).1
                (markAnc maxDepth (revs.length + 1) revs (some cid) 0 cnt).2 := by
          simp [pruneMarkLoop, hf, hl]
        obtain ⟨⟨g0, hg0, hrevs0⟩, hnlp0, hcnt0⟩ :=
          markAnc_spec maxDepth hmd (revs.length + 1) revs (some cid) 0 cnt
            hnd hnlp hlc (fun c _ => Or.inr rfl)
        have hnd2 : (((markAnc maxDepth (revs.length + 1) revs (some cid) 0
            cnt).1).map Rev.revID).Nodup := by
          rw [hrevs0]
          exact nodup_ids_of_purgeOnly hg0 hnd
        have hlc2 : LeavesChildless
            (markAnc maxDepth (revs.length + 1) revs (some cid) 0 cnt).1 := by
          rw [hrevs0]
          exact leavesChildless_map hg0 hlc
        obtain ⟨⟨g1, hg1, hrevs1⟩, hnlp1, hcnt1⟩ :=
          ih (markAnc maxDepth (revs.length + 1) revs (some cid) 0 cnt).1
            (markAnc maxDepth (revs.length + 1) revs (some cid) 0 cnt).2
            hnd2 hnlp0 hlc2
        rw [he]
        refine ⟨⟨fun x => g1 (g0 x), purgeOnlyFn_comp hg0 hg1, ?_⟩,
          hnlp1, ?_⟩
        · rw [hrevs1, hrevs0, map_map_comp]
        · omega
      · by_cases hs : sorted
        · have he : pruneMarkLoop maxDepth sorted (cid :: rest) revs cnt
              = (revs, cnt) := by
            simp [pruneMarkLoop, hf, hl, hs]
          rw [he]
          exact ⟨⟨fun r => r, purgeOnlyFn_id, by simp⟩, hnlp, by simp⟩
        · have he : pruneMarkLoop maxDepth sorted (cid :: rest) revs cnt
              = pruneMarkLoop maxDepth sorted rest revs cnt := by
            simp [pruneMarkLoop, hf, hl, hs]
          rw [he]
          exact ih revs cnt hnd hnlp hlc

/-- Invariants of the remote-protection phase of `prune`: it only clears
purge flags, keeps the counter at least the number of flagged Revs, and
leaves no remote-pinned Rev flagged. -/
lemma pruneRemoteClear_spec :
    ∀ (remotes : List (Nat × RevId)) (revs : List Rev) (cnt : Nat),
    (revs.map Rev.revID).Nodup →
    flaggedCount revs ≤ cnt →
    NoLeafPurged revs →
    (∃ g, PurgeOnlyFn g ∧ PurgeDecFn g ∧
      (pruneRemoteClear remotes revs cnt).1 = revs.map g) ∧
    NoLeafPurged (pruneRemoteClear remotes revs cnt).1 ∧
    flaggedCount (pruneRemoteClear remotes revs cnt).1 ≤
      (pruneRemoteClear remotes revs cnt).2 ∧
    (∀ e ∈ remotes, ∀ s ∈ (pruneRemoteClear remotes revs cnt).1,
      s.revID = e.2 → s.purge = false) := by
  intro remotes
  induction remotes with
  | nil =>
    intro revs cnt hnd hfc hnlp
    refine ⟨⟨fun r => r, purgeOnlyFn_id, purgeDecFn_id,
      by simp [pruneRemoteClear]⟩, ?_, ?_, ?_⟩
    · simpa [pruneRemoteClear] using hnlp
    · simpa [pruneRemoteClear] using hfc
    · intro e he
      cases he
  | cons e rest ih =>
    intro revs cnt hnd hfc hnlp
    rcases hf : revs.find? (fun r => r.revID == e.2) with _ | r
    · have he2 : pruneRemoteClear (e :: rest) revs cnt
          = pruneRemoteClear rest revs cnt := by
        simp [pruneRemoteClear, hf]
      rw [he2]
      obtain ⟨⟨g1, hg1o, hg1d, hrevs1⟩, hnlp1, hfc1, hrem1⟩ :=
        ih revs cnt hnd hfc hnlp
      refine ⟨⟨g1, hg1o, hg1d, hrevs1⟩, hnlp1, hfc1, ?_⟩
      intro e2 he2m s hs hsid
      rcases List.mem_cons.mp he2m with rfl | he2t
      · exfalso
        rw [hrevs1] at hs
        obtain ⟨y, hy, rfl⟩ := List.mem_map.mp hs
        have hyid : y.revID = e2.2 := ((hg1o y).1).symm.trans hsid
        have := List.find?_eq_none.mp hf y hy
        simp [hyid] at this
      · exact hrem1 e2 he2t s hs hsid
    · obtain ⟨hrmem, hrid⟩ := find?_revID_eq hf
      by_cases hp : r.purge
      · have he2 : pruneRemoteClear (e :: rest) revs cnt
            = pruneRemoteClear rest
                (updateRev revs e.2 (fun x => { x with purge := false }))
                (cnt - 1) := by
          simp [pruneRemoteClear, hf, hp]
        have hclear := flaggedCount_clearPurge hnd hrmem hrid hp
        have hupd : PurgeOnlyFn
            (fun x => if x.revID = e.2 then { x with purge := false }
              else x) :=
          purgeOnlyFn_update _ _ (fun _ => ⟨rfl, rfl, rfl, rfl⟩)
        have hdec := purgeDecFn_clear e.2
        have hnd2 : (((updateRev revs e.2
            (fun x => { x with purge := false })).map Rev.revID)).Nodup := by
          rw [updateRev_eq_map]
          exact nodup_ids_of_purgeOnly hupd hnd
        have hfc2 : flaggedCount (updateRev revs e.2
            (fun x => { x with purge := false })) ≤ cnt - 1 := by
          omega
        have hnlp2 : NoLeafPurged (updateRev revs e.2
            (fun x => { x with purge := false })) := by
          rw [updateRev_eq_map]
          exact noLeafPurged_map_dec hupd hdec hnlp
        obtain ⟨⟨g1, hg1o, hg1d, hrevs1⟩, hnlp1, hfc1, hrem1⟩ :=
          ih (updateRev revs e.2 (fun x => { x with purge := false }))
            (cnt - 1) hnd2 hfc2 hnlp2
        rw [he2]
        refine ⟨⟨fun x => g1 (if x.revID = e.2 then { x with purge := false }
            else x), purgeOnlyFn_comp hupd hg1o, purgeDecFn_comp hdec hg1d,
            ?_⟩, hnlp1, hfc1, ?_⟩
        · rw [hrevs1, updateRev_eq_map, map_map_comp]
        · intro e2 he2m s hs hsid
          rcases List.mem_cons.mp he2m with rfl | he2t
          · rw [hrevs1] at hs
            obtain ⟨y2, hy2, rfl⟩ := List.mem_map.mp hs
            have hy2id : y2.revID = e2.2 := ((hg1o y2).1).symm.trans hsid
            have hy2p : y2.purge = false := by
              rw [updateRev_eq_map] at hy2
              obtain ⟨y, hy, rfl⟩ := List.mem_map.mp hy2
              by_cases hye : y.revID = e2.2
              · simp [hye]
              · exfalso
                rw [if_neg hye] at hy2id
                exact hye hy2id
            cases hq : (g1 y2).purge
            · rfl
            · exact absurd (hg1d y2 hq) (by simp [hy2p])
          · exact hrem1 e2 he2t s hs hsid
      · have he2 : pruneRemoteClear (e :: rest) revs cnt
            = pruneRemoteClear rest revs cnt := by
          simp [pruneRemoteClear, hf, hp]
        rw [he2]
        obtain ⟨⟨g1, hg1o, hg1d, hrevs1⟩, hnlp1, hfc1, hrem1⟩ :=
          ih revs cnt hnd hfc hnlp
        refine ⟨⟨g1, hg1o, hg1d, hrevs1⟩, hnlp1, hfc1, ?_⟩
        intro e2 he2m s hs hsid
        rcases List.mem_cons.mp he2m with rfl | he2t
        · rw [hrevs1] at hs
          obtain ⟨y, hy, rfl⟩ := List.mem_map.mp hs
          have hyid : y.revID = e2.2 := ((hg1o y).1).symm.trans hsid
          have hyr : y = r := mem_eq_of_nodup_ids hnd hy hrmem
            (hyid.trans hrid.symm)
          subst hyr
          cases hq : (g1 y).purge
          · rfl
          · exact absurd (hg1d y hq) (by simp [hp])
        · exact hrem1 e2 he2t s hs hsid

lemma length_filter_not_purge_add (l : List Rev) :
    (l.filter (fun r => !r.purge)).length + flaggedCount l = l.length := by
  induction l with
  | nil => rfl
  | cons a l ih =>
    simp only [flaggedCount, List.filter_cons] at ih ⊢
    cases ha : a.purge <;> simp <;> omega

lemma flaggedCount_map_of_purge_eq {f : Rev → Rev}
    (hf : ∀ r, (f r).purge = r.purge) (l : List Rev) :
    flaggedCount (l.map f) = flaggedCount l := by
  induction l with
  | nil => rfl
  | cons a l ih =>
    simp only [flaggedCount, List.map_cons, List.filter_cons, hf a] at ih ⊢
    cases ha : a.purge <;> simp_all

lemma flaggedCount_reparent (l : List Rev) :
    flaggedCount (reparentAcrossPurged l) = flaggedCount l := by
  unfold reparentAcrossPurged
  apply flaggedCount_map_of_purge_eq
  intro r
  by_cases h : r.purge = true <;> simp [h]

lemma length_reparent (l : List Rev) :
    (reparentAcrossPurged l).length = l.length := by
  simp [reparentAcrossPurged]

/-- A Rev not marked for purge survives the reparent-and-compact step,
keeping its revID. -/
lemma survives_compact (revs : List Rev) (s : Rev) (hs : s ∈ revs)
    (hp : s.purge = false) :
    ∃ x ∈ (reparentAcrossPurged revs).filter (fun r => !r.purge),
      x.revID = s.revID := by
  have hmem : (if s.purge then s
      else { s with parent := skipPurged revs (revs.length + 1) s.parent })
      ∈ reparentAcrossPurged revs :=
    List.mem_map.mpr ⟨s, hs, rfl⟩
  rw [if_neg (by simp [hp])] at hmem
  exact ⟨_, List.mem_filter.mpr ⟨hmem, by simp [hp]⟩, rfl⟩

end RT

open RT in
/-- C8 (amended): for a well-formed tree (distinct revIDs, no Rev already
marked for purge, flagged leaves childless) and `maxDepth ≥ 1`,
`prune(maxDepth)` retains every leaf, every remote-pinned Rev and every
Rev with `kKeepBody`; and the returned count is at least the number of
Revs removed (the original claim's equality fails: see the
counterexample, where shared ancestors of two leaves are counted once
per leaf). -/
theorem C8_prune_amended (t : RevTree) (maxDepth : Nat)
    (hmd : 1 ≤ maxDepth)
    (hnd : (t.revs.map Rev.revID).Nodup)
    (hnp : ∀ r ∈ t.revs, r.purge = false)
    (hlc : LeavesChildless t.revs) :
    (∀ r ∈ t.revs, r.leaf = true →
      ∃ s ∈ (t.prune maxDepth).2.revs, s.revID = r.revID) ∧
    (∀ e ∈ t.remoteRevs, ∀ r ∈ t.revs, r.revID = e.2 →
      ∃ s ∈ (t.prune maxDepth).2.revs, s.revID = r.revID) ∧
    (∀ r ∈ t.revs, r.keepBody = true →
      ∃ s ∈ (t.prune maxDepth).2.revs, s.revID = r.revID) ∧
    t.revs.length ≤ (t.prune maxDepth).2.revs.length +
      (t.prune maxDepth).1 := by
  have hnlp0 : NoLeafPurged t.revs := by
    intro r hr hp
    rw [hnp r hr] at hp
    cases hp
  have hfc0 : flaggedCount t.revs = 0 := by
    simp only [flaggedCount, List.length_eq_zero]
    exact List.filter_eq_nil_iff.mpr (fun r hr => by simp [hnp r hr])
  by_cases h1 : t.revs.length ≤ maxDepth
  · have he : t.prune maxDepth = (0, t) := by
      simp [RevTree.prune, h1]
    rw [he]
    exact ⟨fun r hr _ => ⟨r, hr, rfl⟩, fun _ _ r hr _ => ⟨r, hr, rfl⟩,
      fun r hr _ => ⟨r, hr, rfl⟩, by simp⟩
  · obtain ⟨⟨g1, hg1, hrevs1⟩, hnlp1, hcnt1⟩ :=
      pruneMarkLoop_spec maxDepth hmd t.sorted (t.revs.map Rev.revID)
        t.revs 0 hnd hnlp0 hlc
    by_cases h2 :
        (pruneMarkLoop maxDepth t.sorted (t.revs.map Rev.revID) t.revs 0).2
          = 0
    · have he : t.prune maxDepth = (0, { t with revs :=
          (pruneMarkLoop maxDepth t.sorted (t.revs.map Rev.revID)
            t.revs 0).1 }) := by
        simp [RevTree.prune, h1, h2]
      have hpres : ∀ r ∈ t.revs,
          ∃ s ∈ (pruneMarkLoop maxDepth t.sorted (t.revs.map Rev.revID)
            t.revs 0).1, s.revID = r.revID := by
        intro r hr
        exact ⟨g1 r, by rw [hrevs1]; exact List.mem_map.mpr ⟨r, hr, rfl⟩,
          (hg1 r).1⟩
      have hlen : (pruneMarkLoop maxDepth t.sorted (t.revs.map Rev.revID)
          t.revs 0).1.length = t.revs.length := by
        rw [hrevs1, List.length_map]
      rw [he]
      exact ⟨fun r hr _ => hpres r hr, fun _ _ r hr _ => hpres r hr,
        fun r hr _ => hpres r hr, by simp [hlen]⟩
    · have hnd1 : (((pruneMarkLoop maxDepth t.sorted (t.revs.map Rev.revID)
          t.revs 0).1).map Rev.revID).Nodup := by
        rw [hrevs1]
        exact nodup_ids_of_purgeOnly hg1 hnd
      have hfcle1 : flaggedCount (pruneMarkLoop maxDepth t.sorted
          (t.revs.map Rev.revID) t.revs 0).1 ≤
          (pruneMarkLoop maxDepth t.sorted (t.revs.map Rev.revID)
            t.revs 0).2 := by
        omega
      obtain ⟨⟨g2, hg2o, hg2d, hrevs2⟩, hnlp2, hfc2, hrem2⟩ :=
        pruneRemoteClear_spec t.remoteRevs
          (pruneMarkLoop maxDepth t.sorted (t.revs.map Rev.revID) t.revs 0).1
          (pruneMarkLoop maxDepth t.sorted (t.revs.map Rev.revID) t.revs 0).2
          hnd1 hfcle1 hnlp1
      have hrevsC : (pruneRemoteClear t.remoteRevs
          (pruneMarkLoop maxDepth t.sorted (t.revs.map Rev.revID) t.revs 0).1
          (pruneMarkLoop maxDepth t.sorted (t.revs.map Rev.revID)
            t.revs 0).2).1 = t.revs.map (fun r => g2 (g1 r)) := by
        rw [hrevs2, hrevs1, map_map_comp]
      have hgc : PurgeOnlyFn (fun r => g2 (g1 r)) :=
        purgeOnlyFn_comp hg1 hg2o
      have hlenC : (pruneRemoteClear t.remoteRevs
          (pruneMarkLoop maxDepth t.sorted (t.revs.map Rev.revID) t.revs 0).1
          (pruneMarkLoop maxDepth t.sorted (t.revs.map Rev.revID)
            t.revs 0).2).1.length = t.revs.length := by
        rw [hrevsC, List.length_map]
      by_cases h3 : (pruneRemoteClear t.remoteRevs
          (pruneMarkLoop maxDepth t.sorted (t.revs.map Rev.revID) t.revs 0).1
          (pruneMarkLoop maxDepth t.sorted (t.revs.map Rev.revID)
            t.revs 0).2).2 = 0
      · have he : t.prune maxDepth = (0, { t with revs :=
            (pruneRemoteClear t.remoteRevs
              (pruneMarkLoop maxDepth t.sorted (t.revs.map Rev.revID)
                t.revs 0).1
              (pruneMarkLoop maxDepth t.sorted (t.revs.map Rev.revID)
                t.revs 0).2).1 }) := by
          simp [RevTree.prune, h1, h2, h3]
        have hpres : ∀ r ∈ t.revs,
            ∃ s ∈ (pruneRemoteClear t.remoteRevs
              (pruneMarkLoop maxDepth t.sorted (t.revs.map Rev.revID)
                t.revs 0).1
              (pruneMarkLoop maxDepth t.sorted (t.revs.map Rev.revID)
                t.revs 0).2).1, s.revID = r.revID := by
          intro r hr
          exact ⟨g2 (g1 r),
            by rw [hrevsC]; exact List.mem_map.mpr ⟨r, hr, rfl⟩,
            (hgc r).1⟩
        rw [he]
        exact ⟨fun r hr _ => hpres r hr, fun _ _ r hr _ => hpres r hr,
          fun r hr _ => hpres r hr, by simp [hlenC]⟩
      · have heC : (t.prune maxDepth).1 = (pruneRemoteClear t.remoteRevs
            (pruneMarkLoop maxDepth t.sorted (t.revs.map Rev.revID)
              t.revs 0).1
            (pruneMarkLoop maxDepth t.sorted (t.revs.map Rev.revID)
              t.revs 0).2).2 := by
          simp [RevTree.prune, h1, h2, h3]
        have heR : (t.prune maxDepth).2.revs =
            (reparentAcrossPurged (pruneRemoteClear t.remoteRevs
              (pruneMarkLoop maxDepth t.sorted (t.revs.map Rev.revID)
                t.revs 0).1
              (pruneMarkLoop maxDepth t.sorted (t.revs.map Rev.revID)
                t.revs 0).2).1).filter (fun r => !r.purge) := by
          simp [RevTree.prune, RevTree.compact, h1, h2, h3]
        have hsurv : ∀ r ∈ t.revs, (g2 (g1 r)).purge = false →
            ∃ s ∈ (t.prune maxDepth).2.revs, s.revID = r.revID := by
          intro r hr hp
          rw [heR]
          have hmem : g2 (g1 r) ∈ (pruneRemoteClear t.remoteRevs
              (pruneMarkLoop maxDepth t.sorted (t.revs.map Rev.revID)
                t.revs 0).1
              (pruneMarkLoop maxDepth t.sorted (t.revs.map Rev.revID)
                t.revs 0).2).1 := by
            rw [hrevsC]
            exact List.mem_map.mpr ⟨r, hr, rfl⟩
          obtain ⟨x, hx, hxid⟩ := survives_compact _ _ hmem hp
          exact ⟨x, hx, hxid.trans (hgc r).1⟩
        refine ⟨?_, ?_, ?_, ?_⟩
        · intro r hr hl
          apply hsurv r hr
          cases hq : (g2 (g1 r)).purge
          · rfl
          · exfalso
            have hmem : g2 (g1 r) ∈ (pruneRemoteClear t.remoteRevs
                (pruneMarkLoop maxDepth t.sorted (t.revs.map Rev.revID)
                  t.revs 0).1
                (pruneMarkLoop maxDepth t.sorted (t.revs.map Rev.revID)
                  t.revs 0).2).1 := by
              rw [hrevsC]
              exact List.mem_map.mpr ⟨r, hr, rfl⟩
            have := (hnlp2 _ hmem hq).1
            rw [(hgc r).2.2.1, hl] at this
            cases this
        · intro e he r hr hrid
          apply hsurv r hr
          have hmem : g2 (g1 r) ∈ (pruneRemoteClear t.remoteRevs
              (pruneMarkLoop maxDepth t.sorted (t.revs.map Rev.revID)
                t.revs 0).1
              (pruneMarkLoop maxDepth t.sorted (t.revs.map Rev.revID)
                t.revs 0).2).1 := by
            rw [hrevsC]
            exact List.mem_map.mpr ⟨r, hr, rfl⟩
          exact hrem2 e he _ hmem ((hgc r).1.trans hrid)
        · intro r hr hk
          apply hsurv r hr
          cases hq : (g2 (g1 r)).purge
          · rfl
          · exfalso
            have hmem : g2 (g1 r) ∈ (pruneRemoteClear t.remoteRevs
                (pruneMarkLoop maxDepth t.sorted (t.revs.map Rev.revID)
                  t.revs 0).1
                (pruneMarkLoop maxDepth t.sorted (t.revs.map Rev.revID)
                  t.revs 0).2).1 := by
              rw [hrevsC]
              exact List.mem_map.mpr ⟨r, hr, rfl⟩
            have := (hnlp2 _ hmem hq).2
            rw [(hgc r).2.2.2, hk] at this
            cases this
        · rw [heC, heR]
          have hfilter := length_filter_not_purge_add
            (reparentAcrossPurged (pruneRemoteClear t.remoteRevs
              (pruneMarkLoop maxDepth t.sorted (t.revs.map Rev.revID)
                t.revs 0).1
              (pruneMarkLoop maxDepth t.sorted (t.revs.map Rev.revID)
                t.revs 0).2).1)
          rw [flaggedCount_reparent, length_reparent, hlenC] at hfilter
          omega

/-- Witness for the amended C8 on the two-branch tree with
`maxDepth = 1`: both leaves survive and the tree shrinks by at most the
returned count. -/
theorem C8_prune_amended_witness :
    (∀ r ∈ RT.twoBranchTree.revs, r.leaf = true →
      ∃ s ∈ (RT.twoBranchTree.prune 1).2.revs, s.revID = r.revID) ∧
    RT.twoBranchTree.revs.length ≤
      (RT.twoBranchTree.prune 1).2.revs.length +
      (RT.twoBranchTree.prune 1).1 :=
  have h := C8_prune_amended RT.twoBranchTree 1 (by decide) (by decide)
    (by decide) (by unfold RT.LeavesChildless RT.HasChild; decide)
  ⟨h.1, h.2.2.2⟩

namespace VD

lemma find?_append_of_none {α : Type} (p : α → Bool) {l1 : List α}
    (l2 : List α) (h : l1.find? p = none) :
    (l1 ++ l2).find? p = l2.find? p := by
  induction l1 with
  | nil => rfl
  | cons a l ih =>
    by_cases hpa : p a
    · rw [List.find?_cons_of_pos _ hpa] at h
      cases h
    · rw [List.find?_cons_of_neg _ hpa] at h
      rw [List.cons_append, List.find?_cons_of_neg _ hpa]
      exact ih h

lemma find?_append_of_some {α : Type} (p : α → Bool) {l1 : List α}
    (l2 : List α) {x : α} (h : l1.find? p = some x) :
    (l1 ++ l2).find? p = some x := by
  induction l1 with
  | nil => cases h
  | cons a l ih =>
    by_cases hpa : p a
    · rw [List.find?_cons_of_pos _ hpa] at h
      rw [List.cons_append, List.find?_cons_of_pos _ hpa]
      exact h
    · rw [List.find?_cons_of_neg _ hpa] at h
      rw [List.cons_append, List.find?_cons_of_neg _ hpa]
      exact ih h

lemma find?_key_map_replace (n m : Nat) (rev : VRevision) (h : m ≠ n) :
    ∀ l : List (Nat × VRevision),
    (l.map (fun e => if e.1 = n then (n, rev) else e)).find?
      (fun e => e.1 == m) = l.find? (fun e => e.1 == m) := by
  intro l
  induction l with
  | nil => rfl
  | cons a l ih =>
    by_cases ha : a.1 = n
    · simp only [List.map_cons, if_pos ha]
      rw [List.find?_cons_of_neg _ (by
          simp only [beq_iff_eq]
          exact fun hc => h hc.symm),
        List.find?_cons_of_neg _ (by
          simp only [beq_iff_eq, ha]
          exact fun hc => h hc.symm)]
      exact ih
    · simp only [List.map_cons, if_neg ha]
      by_cases ham : a.1 = m
      · rw [List.find?_cons_of_pos _ (by simp [ham]),
          List.find?_cons_of_pos _ (by simp [ham])]
      · rw [List.find?_cons_of_neg _ (by simp [ham]),
          List.find?_cons_of_neg _ (by simp [ham])]
        exact ih

lemma find?_key_map_replace_self (n : Nat) (rev : VRevision) :
    ∀ l : List (Nat × VRevision),
    (l.find? (fun e => e.1 == n)).isSome →
    (l.map (fun e => if e.1 = n then (n, rev) else e)).find?
      (fun e => e.1 == n) = some (n, rev) := by
  intro l
  induction l with
  | nil => intro h; cases h
  | cons a l ih =>
    intro h
    by_cases ha : a.1 = n
    · simp only [List.map_cons, if_pos ha]
      rw [List.find?_cons_of_pos _ (by simp)]
    · simp only [List.map_cons, if_neg ha]
      rw [List.find?_cons_of_neg _ (by simp [ha])]
      apply ih
      rw [List.find?_cons_of_neg _ (by simp [ha])] at h
      exact h

/-- Writing a slot makes `remoteRevision` of that slot return the new
revision. -/
lemma remoteRevision_set_self (d : VDoc) (n : Nat) (rev : VRevision) :
    (d.setRemoteRevision n rev).remoteRevision n = some rev := by
  unfold VDoc.setRemoteRevision VDoc.remoteRevision
  by_cases h : (d.revs.find? (fun e => e.1 == n)).isSome
  · rw [if_pos h]
    simp only
    rw [find?_key_map_replace_self n rev d.revs h]
    rfl
  · rw [if_neg h]
    have hn : d.revs.find? (fun e => e.1 == n) = none := by
      cases hf : d.revs.find? (fun e => e.1 == n)
      · rfl
      · rw [hf] at h
        simp at h
    simp only
    rw [find?_append_of_none _ _ hn,
      List.find?_cons_of_pos _ (by simp)]
    rfl

/-- Writing one slot leaves every other slot's `remoteRevision`
unchanged. -/
lemma remoteRevision_set_other (d : VDoc) (n m : Nat) (rev : VRevision)
    (h : m ≠ n) :
    (d.setRemoteRevision n rev).remoteRevision m = d.remoteRevision m := by
  unfold VDoc.setRemoteRevision VDoc.remoteRevision
  by_cases hf : (d.revs.find? (fun e => e.1 == n)).isSome
  · rw [if_pos hf]
    simp only
    rw [find?_key_map_replace n m rev h d.revs]
  · rw [if_neg hf]
    simp only
    cases hm : d.revs.find? (fun e => e.1 == m) with
    | none =>
      rw [find?_append_of_none _ _ hm,
        List.find?_cons_of_neg _ (by simp; exact fun hc => h hc.symm)]
      rfl
    | some x =>
      rw [find?_append_of_some _ _ hm]

end VD

/-- C5: the order switch of `putExistingRevision` on an existing
document: Same/Older keep the Local revision and return common ancestor
0; Newer replaces Local with the incoming revision and returns 1;
Conflicting fails with Conflict when the target remote is Local, and
otherwise succeeds with the stored revision carrying `kConflicted` while
Local is untouched; and a non-Local target's slot always receives the
incoming revision on success. -/
theorem C5_putExisting_cases (d : VD.VDoc) (newVers : CBF.VV) (remote : Nat)
    (deleted hasAttachments : Bool) (props : Nat)
    (hex : d.docExists = true) :
    ((CBF.compareTo newVers d.currentVersionVector = CBF.kSame ∨
      CBF.compareTo newVers d.currentVersionVector = CBF.kOlder) →
      ∃ d2, VD.putExistingRevision d newVers remote deleted hasAttachments
          props = .ok (0, d2) ∧
        d2.remoteRevision 0 = d.remoteRevision 0) ∧
    (CBF.compareTo newVers d.currentVersionVector = CBF.kNewer →
      ∃ d2, VD.putExistingRevision d newVers remote deleted hasAttachments
          props = .ok (1, d2) ∧
        ∃ r, d2.remoteRevision 0 = some r ∧ r.revID = newVers ∧
          r.flags.conflicted = false) ∧
    (CBF.compareTo newVers d.currentVersionVector = CBF.kConflicting →
      (remote = 0 →
        VD.putExistingRevision d newVers remote deleted hasAttachments props
          = .error .conflict) ∧
      (remote ≠ 0 →
        ∃ d2, VD.putExistingRevision d newVers remote deleted hasAttachments
            props = .ok (1, d2) ∧
          d2.remoteRevision 0 = d.remoteRevision 0 ∧
          ∃ r, d2.remoteRevision remote = some r ∧ r.revID = newVers ∧
            r.flags.conflicted = true)) ∧
    (remote ≠ 0 →
      ∀ ca d2, VD.putExistingRevision d newVers remote deleted hasAttachments
          props = .ok (ca, d2) →
        ∃ r, d2.remoteRevision remote = some r ∧ r.revID = newVers) := by
  refine ⟨?_, ?_, ?_, ?_⟩
  · rintro (h | h)
    all_goals
      refine ⟨VD.putFinish d
        (VD.mkNewRev newVers deleted hasAttachments props) remote, ?_, ?_⟩
      · simp [VD.putExistingRevision, hex, h, CBF.kSame, CBF.kOlder]
      · by_cases hr : remote = 0
        · simp [VD.putFinish, hr]
        · rw [VD.putFinish, if_pos hr]
          exact VD.remoteRevision_set_other d remote 0 _ (Ne.symm hr)
  · intro h
    refine ⟨VD.putFinish
        (d.setCurrentRevision (VD.mkNewRev newVers deleted hasAttachments
          props))
        (VD.mkNewRev newVers deleted hasAttachments props) remote, ?_, ?_⟩
    · simp [VD.putExistingRevision, hex, h, CBF.kSame, CBF.kOlder,
        CBF.kNewer]
    · refine ⟨VD.mkNewRev newVers deleted hasAttachments props, ?_, rfl, rfl⟩
      by_cases hr : remote = 0
      · rw [VD.putFinish, if_neg (by simp [hr])]
        exact VD.remoteRevision_set_self d 0 _
      · rw [VD.putFinish, if_pos hr,
          VD.remoteRevision_set_other _ remote 0 _ (Ne.symm hr)]
        exact VD.remoteRevision_set_self d 0 _
  · intro h
    constructor
    · intro hr
      simp [VD.putExistingRevision, hex, h, hr, CBF.kSame, CBF.kOlder,
        CBF.kNewer, CBF.kConflicting]
    · intro hr
      refine ⟨VD.putFinish d
        { VD.mkNewRev newVers deleted hasAttachments props with
          flags := { (VD.mkNewRev newVers deleted hasAttachments
            props).flags with conflicted := true } } remote, ?_, ?_, ?_⟩
      · simp [VD.putExistingRevision, hex, h, hr, CBF.kSame, CBF.kOlder,
          CBF.kNewer, CBF.kConflicting]
      · rw [VD.putFinish, if_pos hr]
        exact VD.remoteRevision_set_other d remote 0 _ (Ne.symm hr)
      · refine ⟨{ VD.mkNewRev newVers deleted hasAttachments props with
            flags := { (VD.mkNewRev newVers deleted hasAttachments
              props).flags with conflicted := true } }, ?_, rfl, rfl⟩
        rw [VD.putFinish, if_pos hr]
        exact VD.remoteRevision_set_self d remote _
  · intro hr ca d2 hok
    rw [VD.putExistingRevision] at hok
    simp only [hex, if_true] at hok
    split_ifs at hok with h1 h2
    · rw [Except.ok.injEq, Prod.mk.injEq] at hok
      refine ⟨VD.mkNewRev newVers deleted hasAttachments props, ?_, rfl⟩
      rw [← hok.2, VD.putFinish, if_pos hr]
      exact VD.remoteRevision_set_self _ remote _
    · rw [Except.ok.injEq, Prod.mk.injEq] at hok
      refine ⟨VD.mkNewRev newVers deleted hasAttachments props, ?_, rfl⟩
      rw [← hok.2, VD.putFinish, if_pos hr]
      exact VD.remoteRevision_set_self _ remote _
    · rw [Except.ok.injEq, Prod.mk.injEq] at hok
      refine ⟨{ VD.mkNewRev newVers deleted hasAttachments props with
          flags := { (VD.mkNewRev newVers deleted hasAttachments
            props).flags with conflicted := true } }, ?_, rfl⟩
      rw [← hok.2, VD.putFinish, if_pos hr]
      exact VD.remoteRevision_set_self _ remote _

/-- Witness for C5: that document receives vector 3@A (Newer) targeted at
remote 1; the call returns common ancestor 1 and replaces Local. -/
theorem C5_putExisting_witness :
    VD.C5doc.docExists = true ∧
    CBF.compareTo [⟨3, "A"⟩] VD.C5doc.currentVersionVector = CBF.kNewer ∧
    ∃ d2, VD.putExistingRevision VD.C5doc [⟨3, "A"⟩] 1 false false 7
        = .ok (1, d2) ∧
      ∃ r, d2.remoteRevision 0 = some r ∧ r.revID = [⟨3, "A"⟩] ∧
        r.flags.conflicted = false :=
  ⟨rfl, by decide,
    (C5_putExisting_cases VD.C5doc [⟨3, "A"⟩] 1 false false 7 rfl).2.1
      (by decide)⟩

/-- C6: `resolveConflict` never checks that one of the two named
revisions is the Local one (the comment "One has to be Local" is not
enforced). With winning = slot 1's vector and losing = slot 2's vector —
neither Local, slot 1 `Conflicted` — the call succeeds and overwrites
the Local revision with a merge of the two remotes, instead of failing
with Conflict as the specification requires. -/
theorem C6_resolveConflict_missing_local_check :
    (VD.C6doc.findRemote (VD.RevIDQuery.vec [⟨1, "B"⟩])).map Prod.fst
      = some 1 ∧
    (VD.C6doc.findRemote (VD.RevIDQuery.vec [⟨1, "C"⟩])).map Prod.fst
      = some 2 ∧
    (VD.C6doc.remoteRevision 0).map (fun r => r.revID) = some [⟨1, "A"⟩] ∧
    ((VD.resolveConflict VD.C6doc (VD.RevIDQuery.vec [⟨1, "B"⟩])
        (VD.RevIDQuery.vec [⟨1, "C"⟩]) none false false).toOption.map
      (fun d2 => (d2.remoteRevision 0).map (fun r => r.revID)))
      = some (some [⟨1, "*"⟩, ⟨1, "C"⟩, ⟨1, "B"⟩]) := by
  decide

/-- C7: scenario S6's expected string is wrong. With current generation
3 and common-ancestor generation 1, the produced vector is
`1@7777777,2@*` — the legacy base version comes first and carries the
base's generation 1 — not `2@*,2@7777777`. -/
theorem C7_upgrade_counterexample :
    UPG.vvASCII (UPG.upgradeVersionVector 3 (some 1)) UPG.kMePeer
      = "1@7777777,2@*" ∧
    UPG.vvASCII (UPG.upgradeVersionVector 3 (some 1)) UPG.kMePeer
      ≠ "2@*,2@7777777" := by
  decide

/-- C7 (amended): the construction matches the spec's general recipe —
`(base.gen, kLegacy)` when a base exists, then `(localChanges, kMe)`
when positive — and for S6 the produced vector's ASCII form is
`1@7777777,2@*`, while the remote slot carries `2@7777777`. -/
theorem C7_upgrade_amended :
    (∀ cg bg : Nat, UPG.upgradeVersionVector cg (some bg)
      = ⟨bg, UPG.kLegacyPeerID⟩ ::
        (if bg < cg then [⟨cg - bg, UPG.kMePeer⟩] else [])) ∧
    (∀ cg : Nat, UPG.upgradeVersionVector cg none
      = if 0 < cg then [⟨cg, UPG.kMePeer⟩] else []) ∧
    (∀ g : Nat, UPG.legacyRemoteVector g = [⟨g, UPG.kLegacyPeerID⟩]) ∧
    UPG.vvASCII (UPG.upgradeVersionVector 3 (some 1)) UPG.kMePeer
      = "1@7777777,2@*" ∧
    UPG.vvASCII (UPG.legacyRemoteVector 2) UPG.kMePeer = "2@7777777" := by
  refine ⟨?_, ?_, fun g => rfl, by decide, by decide⟩
  · intro cg bg
    simp only [UPG.upgradeVersionVector, UPG.vvAdd]
    by_cases h : (0 : Int) < (cg : Int) - (bg : Int)
    · rw [if_pos h, if_pos (by omega)]
      have ht : ((cg : Int) - (bg : Int)).toNat = cg - bg := by omega
      simp [ht]
    · rw [if_neg h, if_neg (by omega)]
      simp
  · intro cg
    simp only [UPG.upgradeVersionVector, UPG.vvAdd]
    by_cases h : (0 : Int) < (cg : Int)
    · rw [if_pos h, if_pos (by omega)]
      have ht : ((cg : Int)).toNat = cg := by omega
      simp [ht]
    · rw [if_neg h, if_neg (by omega)]

set_option maxRecDepth 8192 in
/-- C9: the claim feeds the whole parent revID to the hash, but the code
hashes at most its first 255 bytes. With the 256-byte parent
`1-aaa...a`, the SHA-1 input built by the code differs from the claimed
one, while the generation is parsed as 1 + 1 = 2. -/
theorem C9_digest_counterexample :
    (C4D.generateDocRevID false [] (some (49 :: 45 :: List.replicate 254 97))
        false).map Prod.snd
      ≠ some (C4D.specDigestInput false []
          (49 :: 45 :: List.replicate 254 97) false) ∧
    (C4D.generateDocRevID false [] (some (49 :: 45 :: List.replicate 254 97))
        false).map Prod.fst = some 2 := by
  decide

/-- C9 (amended): the digest input always uses the parent truncated to
its first 255 bytes (in both the length byte and the hashed bytes); the
generation is the parent's parsed generation + 1, or 1 when there is no
parent; and the MD5 path is taken exactly when the old-style flag is
set. -/
theorem C9_digest_amended (oldStyle : Bool) (body : List Nat)
    (parent : Option (List Nat)) (deleted : Bool) :
    (∀ g di, C4D.generateDocRevID oldStyle body parent deleted
        = some (g, di) →
      di = C4D.specDigestInputTrunc oldStyle body (parent.getD [])
        deleted) ∧
    (parent = none →
      C4D.generateDocRevID oldStyle body parent deleted
        = some (1, C4D.specDigestInputTrunc oldStyle body [] deleted)) ∧
    (∀ p g di, parent = some p →
      C4D.generateDocRevID oldStyle body parent deleted = some (g, di) →
      ∃ pg, C4D.parseRevIDGen p = some pg ∧ g = pg + 1) ∧
    (∀ g bytes, C4D.generateDocRevID oldStyle body parent deleted
        = some (g, C4D.DigestInput.md5In bytes) → oldStyle = true) := by
  have hinput : ∀ g di, C4D.generateDocRevID oldStyle body parent deleted
      = some (g, di) →
      di = C4D.specDigestInputTrunc oldStyle body (parent.getD [])
        deleted := by
    intro g di h
    cases parent with
    | none =>
      simp only [C4D.generateDocRevID, Option.getD] at h ⊢
      rw [Option.some.injEq, Prod.mk.injEq] at h
      rw [← h.2]
      rfl
    | some p =>
      simp only [C4D.generateDocRevID, Option.getD] at h ⊢
      cases hp : C4D.parseRevIDGen p with
      | none => rw [hp] at h; cases h
      | some pg =>
        rw [hp] at h
        rw [Option.some.injEq, Prod.mk.injEq] at h
        rw [← h.2]
        rfl
  refine ⟨hinput, ?_, ?_, ?_⟩
  · intro hn
    subst hn
    have : C4D.generateDocRevID oldStyle body none deleted
        = some (1, C4D.specDigestInputTrunc oldStyle body [] deleted) := by
      simp only [C4D.generateDocRevID]
      rw [Option.some.injEq, Prod.mk.injEq]
      exact ⟨rfl, by rfl⟩
    exact this
  · intro p g di hp h
    subst hp
    simp only [C4D.generateDocRevID] at h
    cases hq : C4D.parseRevIDGen p with
    | none => rw [hq] at h; cases h
    | some pg =>
      rw [hq] at h
      rw [Option.some.injEq, Prod.mk.injEq] at h
      exact ⟨pg, rfl, h.1.symm⟩
  · intro g bytes h
    have := hinput g (C4D.DigestInput.md5In bytes) h
    cases ho : oldStyle with
    | true => rfl
    | false =>
      rw [ho] at this
      simp [C4D.specDigestInputTrunc] at this

/-- Witness for the amended C9 at a concrete input: no parent, one-byte
body, deleted. -/
theorem C9_digest_amended_witness :
    C4D.generateDocRevID false [7] none true
      = some (1, C4D.specDigestInputTrunc false [7] [] true) :=
  (C9_digest_amended false [7] none true).2.1 rfl
